import Mathlib

/-!
Verification of the etymology aggregation core of the etmos-ai repository.

The development shallowly embeds the merge/deduplication pipeline of
`src/server/services/etymologyService.ts`, the rule-based cognate generator of
`src/server/services/cognateService.ts`, the shared helpers of
`src/shared/utils/etymologyUtils.ts`, and the cross-reference machinery of
`src/server/services/etymonlineAPI.ts`.

Modelling conventions:
- JavaScript strings are Lean `String`s; the handful of string primitives the
  code uses (`toLowerCase`, `trim`, `startsWith`, `includes`, `endsWith`) are
  re-implemented over the underlying character list.  `toLowerCase` is modelled
  on ASCII letters (every string constant compared by the embedded code is
  ASCII; non-ASCII letters are left unchanged).
- JavaScript numbers carrying confidences are modelled as rationals; every
  numeric literal the code uses is an exact decimal, and the only arithmetic is
  `+ 0.1`, `* 0.9`, `min` and comparisons, so no floating-point rounding can
  change any comparison made by the code.  Divisions used in similarity
  thresholds (`size / max < 0.2`) are embedded multiplicatively
  (`5 * size < max`), which agrees with the JS comparison also in the
  division-by-zero (NaN) case, where both sides are `false`.
- Fields never read by the embedded logic (`id`, `partOfSpeech`, `definition`,
  `notes`, `origin`, `sharedRoot` of a merged connection) are omitted.
- `Array.prototype.sort` with a comparator is stable in JS; it is modelled by
  (stable) insertion sort with the corresponding total preorder.
- Randomness (`randomUUID`), caching and logging are irrelevant to the claims
  and are not modelled.
-/

namespace Etmos

/-! ## JS string primitives -/

/-- The ASCII upper-to-lower case table. -/
def upperLowerPairs : List (Char × Char) :=
  [ ( 'A', 'a' ), ( 'B', 'b' ), ( 'C', 'c' ), ( 'D', 'd' ), ( 'E', 'e' ),
    ( 'F', 'f' ), ( 'G', 'g' ), ( 'H', 'h' ), ( 'I', 'i' ), ( 'J', 'j' ),
    ( 'K', 'k' ), ( 'L', 'l' ), ( 'M', 'm' ), ( 'N', 'n' ), ( 'O', 'o' ),
    ( 'P', 'p' ), ( 'Q', 'q' ), ( 'R', 'r' ), ( 'S', 's' ), ( 'T', 't' ),
    ( 'U', 'u' ), ( 'V', 'v' ), ( 'W', 'w' ), ( 'X', 'x' ), ( 'Y', 'y' ),
    ( 'Z', 'z' ) ]

/-- ASCII lower-casing of a single character (model of the per-character action
of `String.prototype.toLowerCase` on the ASCII range). -/
def lowerChar (c : Char) : Char :=
  match upperLowerPairs.find? (fun p => p.1 == c) with
  | some p => p.2
  | none => c

/-- Model of `s.toLowerCase()`. -/
def jsToLower (s : String) : String := ⟨s.data.map lowerChar⟩

/-- Whitespace characters recognised by the model of `s.trim()`. -/
def isWsChar (c : Char) : Bool := c = ' ' || c = '\t' || c = '\n' || c = '\r'

/-- Model of `s.trim()`. -/
def jsTrim (s : String) : String :=
  ⟨((s.data.dropWhile isWsChar).reverse.dropWhile isWsChar).reverse⟩

/-- Model of the string-typed `a || b` (empty string is falsy). -/
def jsOr (a b : String) : String := if a = "" then b else a

/-- Model of `s.startsWith('*')`. -/
def startsWithStar (s : String) : Bool :=
  match s.data with
  | c :: _ => c = '*'
  | [] => false

/-- Model of `s.startsWith(p)` for a general pattern. -/
def startsWithStr (s p : String) : Bool := decide (p.data <+: s.data)

/-- Model of `s.endsWith(p)`. -/
def endsWithStr (s p : String) : Bool := decide (p.data <:+ s.data)

/-- Model of `s.includes(p)`. -/
def strContains (s p : String) : Bool := decide (p.data <:+: s.data)

/-- Model of `s.slice(0, -1)`. -/
def dropLast1 (s : String) : String := ⟨s.data.dropLast⟩

/-- Absolute difference `|a - b|` on natural number string lengths (model of `Math.abs(x - y)`). -/
def natDist (a b : ℕ) : ℕ := max a b - min a b

/-- Number of distinct characters of `a` that occur in `b`: the size of
`new Set([...a].filter(ch => b.includes(ch)))`. -/
def commonDistinct (a b : List Char) : ℕ := (a.dedup.filter (fun c => b.contains c)).length

/-! ## `src/shared/utils/etymologyUtils.ts` -/

/-- Strips the first listed ending that matches, from `getRomanceRoot`. -/
def stripEnding (endings : List String) (word : String) : String :=
  match endings with
  | [] => word
  | e :: rest =>
    if endsWithStr word e && decide (word.data.length > e.data.length + 2) then
      ⟨word.data.take (word.data.length - e.data.length)⟩
    else stripEnding rest word

/-- Function `getRomanceRoot` from etymologyUtils.ts. -/
def getRomanceRoot (word : String) : String :=
  stripEnding
    [ "ción", "sión", "tion", "sion", "zione", "sione", "ção", "são",
      "idad", "ité", "ità", "idade", "tate", "dad",
      "oso", "osa", "eux", "euse", "oso", "osa",
      "ico", "ica", "ique", "ico", "ica",
      "al", "ale", "ar", "er", "ir", "are", "ere", "ire" ] word

/-- Function `getGermanicRoot` from etymologyUtils.ts. -/
def getGermanicRoot (word : String) : String :=
  stripEnding
    [ "ing", "ed", "er", "est", "ly", "ness", "ment",
      "en", "an", "ung", "heit", "keit", "lich", "isch" ] word

/-- Function `areRootsRelated` from etymologyUtils.ts: at most `min / 3` positional
character differences over the common length, and length gap at most 2. -/
def areRootsRelated (root1 root2 : String) : Bool :=
  if root1 = root2 then true
  else if natDist root1.data.length root2.data.length > 2 then false
  else
    let maxDiff := min root1.data.length root2.data.length / 3
    ((root1.data.zip root2.data).countP (fun p => p.1 != p.2)) ≤ maxDiff

/-! ## Cross-language derivative detection

`isCrossLanguageDerivative` appears verbatim both in etymologyService.ts and in
cognateService.ts; one definition serves both. -/

/-- One `{ en, romance }` suffix pattern of the English/Germanic-to-Romance
derivative table.  `romance` lists the alternatives of the anchored
alternation; replacing the match drops the longest alternative that is a
suffix (the leftmost regex match position). -/
structure EnRomancePattern where
  en : String
  romance : List String

def enRomancePatterns : List EnRomancePattern :=
  [ ⟨ "tion", [ "ción", "tion", "zione" ] ⟩,
    ⟨ "sion", [ "sión", "sion", "sione" ] ⟩,
    ⟨ "ity", [ "idad", "ité", "ità" ] ⟩,
    ⟨ "ous", [ "oso", "eux", "oso" ] ⟩,
    ⟨ "ic", [ "ico", "ique", "ico" ] ⟩,
    ⟨ "al", [ "al", "al", "ale" ] ⟩ ]

/-- The longest alternative that is a suffix of `t` (the alternative removed by
`t.replace(/a1$|a2$|a3$/, '')`, whose match position is leftmost). -/
def longestSuffixHit (alts : List String) (t : String) : Option String :=
  (alts.filter (fun a => endsWithStr t a)).foldl
    (fun best a =>
      match best with
      | none => some a
      | some b => if a.data.length > b.data.length then some a else some b)
    none

/-- Drop suffix `a` from `t`. -/
def dropSuffixStr (t a : String) : String := ⟨t.data.take (t.data.length - a.data.length)⟩

def romanceLanguages : List String := [ "es", "fr", "it", "pt", "ca", "ro" ]
def germanicLanguages : List String := [ "en", "de", "nl", "da", "sv", "no" ]

/-- Function `isCrossLanguageDerivative` (identical in etymologyService.ts and
cognateService.ts): family-specific shared-root detection. -/
def isCrossLanguageDerivative (source target sourceLang targetLang : String) : Bool :=
  let isSourceRomance := romanceLanguages.contains sourceLang
  let isTargetRomance := romanceLanguages.contains targetLang
  if isSourceRomance && isTargetRomance &&
      (getRomanceRoot source = getRomanceRoot target && decide ((getRomanceRoot source).data.length ≥ 3)) then
    true
  else if (sourceLang = "en" || sourceLang = "de") && isTargetRomance &&
      enRomancePatterns.any (fun pat =>
        endsWithStr source pat.en &&
        match longestSuffixHit pat.romance target with
        | some hit => areRootsRelated (dropSuffixStr source pat.en) (dropSuffixStr target hit)
        | none => false) then
    true
  else
    let isSourceGermanic := germanicLanguages.contains sourceLang
    let isTargetGermanic := germanicLanguages.contains targetLang
    isSourceGermanic && isTargetGermanic &&
      (getGermanicRoot source = getGermanicRoot target && decide ((getGermanicRoot source).data.length ≥ 3))

/-! ## `src/server/services/cognateService.ts` -/

/-- A candidate cognate (interface `Cognate`). -/
structure Cognate where
  word : String
  language : String
  confidence : ℚ
  relationship : String
  semanticField : Option String := none
  concept : Option String := none
  soundChange : Option String := none
  notes : Option String := none
  deriving DecidableEq, Repr

/-- A sound-change rule: `apply` models `word.match(rule.from)` /
`word.replace(rule.from, rule.to)` (`none` when the regex does not match),
`lang`/`family` are the optional tags of the rule table. -/
structure SoundRule where
  apply : List Char → Option (List Char)
  exampleStr : String
  lang : Option String := none
  family : Option String := none

def isVowel (c : Char) : Bool := c = 'a' || c = 'e' || c = 'i' || c = 'o' || c = 'u'

/-- First (leftmost) occurrence of character `c` followed by a vowel, replaced
by `repl vowel` (models the unanchored regexes `k([aeiou])`, `w([aeiou])`). -/
def scanCV (c : Char) (repl : Char → List Char) : List Char → Option (List Char)
  | x :: y :: rest =>
    if x = c && isVowel y then some (repl y ++ rest)
    else (scanCV c repl (y :: rest)).map (x :: ·)
  | _ => none

/-- First (leftmost) occurrence of the two-character literal `a`&`b`, replaced
by `repl` (models the unanchored regexes `th`, `ct`). -/
def scanLit2 (a b : Char) (repl : List Char) : List Char → Option (List Char)
  | x :: y :: rest =>
    if x = a && y = b then some (repl ++ rest)
    else (scanLit2 a b repl (y :: rest)).map (x :: ·)
  | _ => none

/-- Anchored `^h([aeiou])` replaced by `$1`. -/
def ruleHVowel : List Char → Option (List Char)
  | 'h' :: y :: rest => if isVowel y then some (y :: rest) else none
  | _ => none

/-- Anchored single-character replacement `^c` → `repl`. -/
def ruleAnchored (c : Char) (repl : List Char) : List Char → Option (List Char)
  | x :: rest => if x = c then some (repl ++ rest) else none
  | [] => none

def germanicToRomanceRules : List SoundRule :=
  [ ⟨ ruleHVowel, "haus → casa", none, none ⟩,
    ⟨ scanCV 'k' (fun v => [ 'c', v ]), "kin → cognate", none, none ⟩,
    ⟨ scanCV 'w' (fun v => [ 'v', v ]), "water → aqua", none, none ⟩,
    ⟨ ruleAnchored 'f' [ 'p' ], "father → pater", none, none ⟩,
    ⟨ scanLit2 't' 'h' [ 't' ], "three → tres", none, none ⟩ ]

def latinVariationRules : List SoundRule :=
  [ ⟨ scanLit2 'c' 't' [ 't', 't' ], "factum → fatto", some "it", none ⟩,
    ⟨ scanLit2 'c' 't' [ 'c', 'h' ], "factum → hecho", some "es", none ⟩,
    ⟨ scanLit2 'c' 't' [ 'i', 't' ], "factum → fait", some "fr", none ⟩,
    ⟨ ruleAnchored 'p' [], "pater → père", some "fr", none ⟩,
    ⟨ ruleAnchored 'f' [ 'h' ], "farina → harina", some "es", none ⟩ ]

def indoEuropeanRules : List SoundRule :=
  [ ⟨ ruleAnchored 'p' [ 'f' ], "pater → father", none, some "germanic" ⟩,
    ⟨ ruleAnchored 'd' [ 't' ], "decem → ten", none, some "germanic" ⟩,
    ⟨ ruleAnchored 'g' [ 'k' ], "genus → kin", none, some "germanic" ⟩ ]

/-- The keyed `soundChangeRules` table of the constructor. -/
def soundChangeTable (key : String) : Option (List SoundRule) :=
  if key = "germanic_to_romance" then some germanicToRomanceRules
  else if key = "latin_variations" then some latinVariationRules
  else if key = "indo_european" then some indoEuropeanRules
  else none

/-- The static `cognateGroups` concept table:
semantic field → concept → language → surface forms. -/
def cognateGroups : List (String × List (String × List (String × List String))) :=
  [ ( "family_relations",
      [ ( "mother",
          [ ( "en", [ "mother" ] ), ( "de", [ "mutter" ] ), ( "es", [ "madre" ] ),
            ( "fr", [ "mère" ] ), ( "it", [ "madre" ] ), ( "la", [ "mater" ] ),
            ( "ru", [ "мать" ] ), ( "gr", [ "μητέρα" ] ) ] ),
        ( "father",
          [ ( "en", [ "father" ] ), ( "de", [ "vater" ] ), ( "es", [ "padre" ] ),
            ( "fr", [ "père" ] ), ( "it", [ "padre" ] ), ( "la", [ "pater" ] ),
            ( "ru", [ "отец" ] ), ( "gr", [ "πατέρας" ] ) ] ),
        ( "brother",
          [ ( "en", [ "brother" ] ), ( "de", [ "bruder" ] ), ( "es", [ "hermano" ] ),
            ( "fr", [ "frère" ] ), ( "it", [ "fratello" ] ), ( "la", [ "frater" ] ),
            ( "ru", [ "брат" ] ), ( "gr", [ "αδελφός" ] ) ] ) ] ),
    ( "numbers",
      [ ( "one",
          [ ( "en", [ "one" ] ), ( "de", [ "ein", "eins" ] ), ( "es", [ "uno" ] ),
            ( "fr", [ "un" ] ), ( "it", [ "uno" ] ), ( "la", [ "unus" ] ),
            ( "ru", [ "один" ] ), ( "gr", [ "ένα" ] ) ] ),
        ( "two",
          [ ( "en", [ "two" ] ), ( "de", [ "zwei" ] ), ( "es", [ "dos" ] ),
            ( "fr", [ "deux" ] ), ( "it", [ "due" ] ), ( "la", [ "duo" ] ),
            ( "ru", [ "два" ] ), ( "gr", [ "δύο" ] ) ] ),
        ( "three",
          [ ( "en", [ "three" ] ), ( "de", [ "drei" ] ), ( "es", [ "tres" ] ),
            ( "fr", [ "trois" ] ), ( "it", [ "tre" ] ), ( "la", [ "tres" ] ),
            ( "ru", [ "три" ] ), ( "gr", [ "τρία" ] ) ] ) ] ),
    ( "body_parts",
      [ ( "heart",
          [ ( "en", [ "heart" ] ), ( "de", [ "herz" ] ), ( "es", [ "corazón" ] ),
            ( "fr", [ "cœur" ] ), ( "it", [ "cuore" ] ), ( "la", [ "cor" ] ),
            ( "ru", [ "сердце" ] ), ( "gr", [ "καρδιά" ] ) ] ),
        ( "head",
          [ ( "en", [ "head" ] ), ( "de", [ "kopf", "haupt" ] ), ( "es", [ "cabeza" ] ),
            ( "fr", [ "tête" ] ), ( "it", [ "testa" ] ), ( "la", [ "caput" ] ),
            ( "ru", [ "голова" ] ), ( "gr", [ "κεφάλι" ] ) ] ) ] ),
    ( "basic_concepts",
      [ ( "water",
          [ ( "en", [ "water" ] ), ( "de", [ "wasser" ] ), ( "es", [ "agua" ] ),
            ( "fr", [ "eau" ] ), ( "it", [ "acqua" ] ), ( "la", [ "aqua" ] ),
            ( "ru", [ "вода" ] ), ( "gr", [ "νερό" ] ) ] ),
        ( "fire",
          [ ( "en", [ "fire" ] ), ( "de", [ "feuer" ] ), ( "es", [ "fuego" ] ),
            ( "fr", [ "feu" ] ), ( "it", [ "fuoco" ] ), ( "la", [ "ignis" ] ),
            ( "ru", [ "огонь" ] ), ( "gr", [ "φωτιά" ] ) ] ),
        ( "house",
          [ ( "en", [ "house" ] ), ( "de", [ "haus" ] ), ( "es", [ "casa" ] ),
            ( "fr", [ "maison" ] ), ( "it", [ "casa" ] ), ( "la", [ "domus" ] ),
            ( "ru", [ "дом" ] ), ( "gr", [ "σπίτι" ] ) ] ) ] ) ]

/-- Assoc-list lookup modelling `object[key]` access. -/
def lookupAssoc {α : Type} (m : List (String × α)) (key : String) : Option α :=
  (m.find? (fun p => p.1 == key)).map (·.2)

/-- Function `getLanguageFamily` from cognateService.ts. -/
def getLanguageFamily (languageCode : String) : List String :=
  (lookupAssoc
    [ ( "en", [ "germanic", "indo_european" ] ), ( "de", [ "germanic", "indo_european" ] ),
      ( "nl", [ "germanic", "indo_european" ] ), ( "da", [ "germanic", "indo_european" ] ),
      ( "sv", [ "germanic", "indo_european" ] ), ( "no", [ "germanic", "indo_european" ] ),
      ( "es", [ "romance", "indo_european" ] ), ( "fr", [ "romance", "indo_european" ] ),
      ( "it", [ "romance", "indo_european" ] ), ( "pt", [ "romance", "indo_european" ] ),
      ( "ro", [ "romance", "indo_european" ] ), ( "ca", [ "romance", "indo_european" ] ),
      ( "la", [ "latin", "indo_european" ] ), ( "gr", [ "hellenic", "indo_european" ] ),
      ( "ru", [ "slavic", "indo_european" ] ), ( "pl", [ "slavic", "indo_european" ] ),
      ( "cs", [ "slavic", "indo_european" ] ), ( "ar", [ "semitic" ] ),
      ( "he", [ "semitic" ] ), ( "hi", [ "indo_aryan", "indo_european" ] ),
      ( "sa", [ "indo_aryan", "indo_european" ] ) ] languageCode).getD [ "unknown" ]

/-- Function `isDerivative` from cognateService.ts (same-language suffix/prefix check
or cross-language family-specific root check). -/
def cogSuffixHit (source target : String) (suffix : String) : Bool :=
  target = source ++ suffix
  || (suffix = "ies" && endsWithStr source "y" && target = dropLast1 source ++ "ies")
  || (suffix = "ed" && endsWithStr source "e" && target = source ++ "d")
  || (suffix = "ing" && endsWithStr source "e" && target = dropLast1 source ++ "ing")

def derivationalSuffixes : List String :=
  [ "ing", "ed", "s", "es", "ies", "er", "est", "ly", "ie", "y",
    "ness", "ment", "tion", "sion", "ful", "less", "able", "ible",
    "ist", "ian", "ism", "ity", "hood", "ship", "ward", "wise", "like",
    "ify", "ize", "ise", "ate", "age", "dom", "ory", "ous", "ive", "ant", "ent",
    "al", "ic", "ous", "eous", "ious", "ary", "ery", "ory", "ure", "ade" ]

def derivationalPrefixList : List String :=
  [ "re", "un", "pre", "dis", "mis", "over", "under", "out", "up", "in", "im", "il", "ir",
    "non", "anti", "de", "ex", "sub", "super", "inter", "trans", "semi", "multi", "co" ]

def isDerivative (sourceText targetText sourceLang targetLang : String) : Bool :=
  let source := jsTrim (jsToLower sourceText)
  let target := jsTrim (jsToLower targetText)
  if source = target then true
  else if sourceLang ≠ targetLang then
    isCrossLanguageDerivative source target sourceLang targetLang
  else
    derivationalSuffixes.any (cogSuffixHit source target)
    || derivationalSuffixes.any (cogSuffixHit target source)
    || derivationalPrefixList.any (fun p => target = p ++ source || source = p ++ target)

/-- Function `findDirectCognates`: scan the concept table for the query word and emit
confidence-0.95 cognates for every other listed language. -/
def findDirectCognates (word sourceLanguage : String) (targetLanguages : List String) : List Cognate :=
  cognateGroups.flatMap (fun field =>
    field.2.flatMap (fun concept =>
      let sourceWords := (lookupAssoc concept.2 sourceLanguage).getD []
      if sourceWords.any (fun w => jsToLower w = jsToLower word) then
        targetLanguages.flatMap (fun targetLang =>
          if targetLang ≠ sourceLanguage && (lookupAssoc concept.2 targetLang).isSome then
            ((lookupAssoc concept.2 targetLang).getD []).filterMap (fun cognateWord =>
              if ! isDerivative word cognateWord sourceLanguage targetLang then
                some { word := cognateWord, language := targetLang, confidence := mkRat 95 100,
                       relationship := "cognate", semanticField := some field.1,
                       concept := some concept.1,
                       notes := some ("Direct cognate through " ++ concept.1 ++ " concept") }
              else none)
          else [])
      else []))

/-- One rule application inside `applySoundChangeRules`: skip rules tagged for
a different target language; keep a transformed word only when it differs from
the input and has length above 1.  Candidates carry confidence 0.75 and no
semantic field or concept. -/
def soundChangeCandidate (word : String) (targetLang : String) (rule : SoundRule) : Option Cognate :=
  if rule.lang.isSome && rule.lang ≠ some targetLang then none
  else
    match rule.apply word.data with
    | some t =>
      if (⟨t⟩ : String) ≠ word && decide (t.length > 1) then
        some { word := ⟨t⟩, language := targetLang, confidence := mkRat 3 4,
               relationship := "cognate", soundChange := some rule.exampleStr,
               notes := some ("Potential cognate via sound change: " ++ rule.exampleStr) }
      else none
    | none => none

/-- Function `applySoundChangeRules` from cognateService.ts. -/
def applySoundChangeRules (word sourceLanguage : String) (targetLanguages : List String) : List Cognate :=
  let languageFamilies := getLanguageFamily sourceLanguage
  targetLanguages.flatMap (fun targetLang =>
    if targetLang = sourceLanguage then []
    else
      let targetFamilies := getLanguageFamily targetLang
      languageFamilies.flatMap (fun family =>
        targetFamilies.flatMap (fun targetFamily =>
          let rules := ((soundChangeTable (family ++ "_to_" ++ targetFamily)).orElse
            (fun _ => soundChangeTable family)).getD []
          rules.filterMap (soundChangeCandidate word targetLang))))

/-- Function `deduplicateCognates`: key `word.toLowerCase() + '_' + language`; on
collision keep the higher confidence, replacing in place. -/
def cognateKey (c : Cognate) : String := jsToLower c.word ++ "_" ++ c.language

def replaceFirstCog : List Cognate → Cognate → Cognate → List Cognate
  | [], _, _ => []
  | x :: xs, old, new => if x = old then new :: xs else x :: replaceFirstCog xs old new

def dedupCogGo : List Cognate → List (String × Cognate) → List Cognate → List Cognate
  | [], _, unique => unique
  | c :: rest, seen, unique =>
    match lookupAssoc seen (cognateKey c) with
    | none => dedupCogGo rest ((cognateKey c, c) :: seen) (unique ++ [c])
    | some existing =>
      if existing.confidence < c.confidence then
        dedupCogGo rest
          (seen.map (fun p => if p.1 == cognateKey c then (cognateKey c, c) else p))
          (replaceFirstCog unique existing c)
      else dedupCogGo rest seen unique

def deduplicateCognates (cognates : List Cognate) : List Cognate := dedupCogGo cognates [] []

/-- Descending stable order on cognate confidence, the comparator
`(a, b) => b.confidence - a.confidence`. -/
def cogBefore (a b : Cognate) : Prop := b.confidence ≤ a.confidence

instance : DecidableRel cogBefore := fun a b => inferInstanceAs (Decidable (b.confidence ≤ a.confidence))
instance : IsTotal Cognate cogBefore := ⟨fun a b => le_total b.confidence a.confidence⟩
instance : IsTrans Cognate cogBefore := ⟨fun _ _ _ h h2 => le_trans h2 h⟩

/-- Function `findCognates` (cache aside): direct lookup plus sound-change candidates,
deduplicated and sorted by descending confidence. -/
def findCognates (word sourceLanguage : String) (targetLanguages : List String) : List Cognate :=
  let normalizedWord := jsTrim (jsToLower word)
  List.insertionSort cogBefore
    (deduplicateCognates
      (findDirectCognates normalizedWord sourceLanguage targetLanguages
        ++ applySoundChangeRules normalizedWord sourceLanguage targetLanguages))

/-! ## `src/server/services/etymologyService.ts` -/

/-- A word node (fields read by the merge logic). -/
structure Word where
  text : String
  language : String
  deriving DecidableEq, Repr

/-- The relationship part of a normalized connection (fields read by the
merge logic; `priority` and `source` are `Option` because they are stamped
after normalization). -/
structure Relationship where
  type : String
  confidence : ℚ
  priority : Option String := none
  source : Option String := none
  deriving DecidableEq, Repr

/-- A `NormalizedConnection`. -/
structure Conn where
  word : Word
  relationship : Relationship
  deriving DecidableEq, Repr

/-- Raw connection as delivered by a source (`connection.word.text` etc. may
be missing or non-string, modelled by `Option`). -/
structure RawWord where
  text : Option String
  language : Option String
  deriving DecidableEq, Repr

structure RawRel where
  type : Option String
  confidence : Option ℚ
  deriving DecidableEq, Repr

structure RawConn where
  word : Option RawWord
  relationship : Option RawRel
  deriving DecidableEq, Repr

/-- Function `normalizeConnection`: reject a missing word or empty trimmed text,
default the language to the source word language and then `und`, default the
type to `related` and the confidence to 0.5. -/
def normalizeConnection (sourceWord : Word) (c : RawConn) : Option Conn :=
  match c.word with
  | none => none
  | some w =>
    let targetText := jsTrim ((w.text).getD "")
    if targetText = "" then none
    else
      some
        { word := { text := targetText,
                    language := jsToLower (jsOr ((w.language).getD "") (jsOr sourceWord.language "und")) },
          relationship :=
            { type := match c.relationship with
                      | some r => jsOr ((r.type).getD "") "related"
                      | none => "related",
              confidence := match c.relationship with
                      | some r => (r.confidence).getD (mkRat 1 2)
                      | none => mkRat 1 2 } }

/-- Function `areSemanticallyUnrelated` from etymologyService.ts. -/
def basicElementsES : List String := [ "fire", "water", "earth", "air", "wind" ]
def colorsES : List String :=
  [ "red", "blue", "green", "yellow", "black", "white", "brown", "purple", "orange", "pink" ]
def numbersES : List String :=
  [ "one", "two", "three", "four", "five", "six", "seven", "eight", "nine", "ten" ]

def problematicPairsES : List (String × String) :=
  [ ( "water", "fire" ), ( "fire", "water" ), ( "water", "punjab" ), ( "punjab", "water" ) ]

def areSemanticallyUnrelated (word1 word2 : String) : Bool :=
  let word1Lower := jsToLower word1
  let word2Lower := jsToLower word2
  if startsWithStar word1 || startsWithStar word2 then false
  else if strContains word1Lower "proto" || strContains word2Lower "proto" then false
  else
    let word1IsElement := basicElementsES.contains word1Lower
    let word2IsElement := basicElementsES.contains word2Lower
    let word1IsColor := colorsES.contains word1Lower
    let word2IsColor := colorsES.contains word2Lower
    let word1IsNumber := numbersES.contains word1Lower
    let word2IsNumber := numbersES.contains word2Lower
    if (word1IsElement && word2IsColor) || (word1IsColor && word2IsElement) then true
    else if (word1IsElement && word2IsNumber) || (word1IsNumber && word2IsElement) then true
    else if (word1IsColor && word2IsNumber) || (word1IsNumber && word2IsColor) then true
    -- the source repeats the star/proto guards here; they are unreachable
    -- (identical to the guards above) and repeated for fidelity
    else if startsWithStar word1 || startsWithStar word2 then false
    else if strContains (jsToLower word1) "proto" || strContains (jsToLower word2) "proto" then false
    else
      problematicPairsES.any (fun p =>
        (word1Lower = p.1 && word2Lower = p.2) || (word1Lower = p.2 && word2Lower = p.1))

/-- Function `areLanguageCompatible` from etymologyService.ts. -/
def indoEuropeanLangs : List String :=
  [ "en", "de", "nl", "sv", "da", "no", "fr", "es", "it", "pt", "ro", "la", "grc", "gr",
    "ru", "pl", "cs", "ga", "cy", "sa" ]
def semiticLangs : List String := [ "ar", "he", "am" ]
def sinoLangs : List String := [ "zh", "ja", "ko" ]

def areLanguageCompatible (lang1 lang2 connectionType : String) : Bool :=
  if strContains lang1 "pro" || strContains lang2 "pro" || lang1 = "ine-pro" || lang2 = "ine-pro" then true
  else if connectionType = "etymology" || connectionType = "pie_root" then true
  else
    let lang1IE := indoEuropeanLangs.contains lang1
    let lang2IE := indoEuropeanLangs.contains lang2
    let lang1Sem := semiticLangs.contains lang1
    let lang2Sem := semiticLangs.contains lang2
    let lang1Sino := sinoLangs.contains lang1
    let lang2Sino := sinoLangs.contains lang2
    if (lang1IE && lang2IE) || (lang1Sem && lang2Sem) || (lang1Sino && lang2Sino) then true
    else if connectionType = "borrowing" || connectionType = "loan" then true
    else false

/-- Lower-cased with every non-`a`..`z` character removed:
`word.toLowerCase().replace(/[^a-z]/g, '')`. -/
def cleanAz (s : String) : String :=
  ⟨(jsToLower s).data.filter (fun c => 'a' ≤ c && c ≤ 'z')⟩

/-- Function `isSuspiciousCognate`: cross-language pairs with shared-character ratio
below 0.2 and length gap above 3.  `similarity < 0.2` is embedded as
`5 * common < maxLen`, which also agrees with the JS `NaN < 0.2 = false`
behaviour when both cleaned words are empty. -/
def isSuspiciousCognate (word1 word2 lang1 lang2 : String) : Bool :=
  let word1Clean := cleanAz word1
  let word2Clean := cleanAz word2
  if lang1 ≠ lang2 then
    let common := commonDistinct word1Clean.data word2Clean.data
    5 * common < max word1Clean.data.length word2Clean.data.length
      && natDist word1Clean.data.length word2Clean.data.length > 3
  else false

/-- Function `isValidCognateConnection`: sanity checks, length gap at most 4, at least
25% shared distinct characters (`4 * common < maxLen` embeds
`similarity < 0.25`; the first guard makes `maxLen` positive), and language
family compatibility for type `cognate`. -/
def isValidCognateConnection (sourceWord cognateWord sourceLang cognateLang : String) : Bool :=
  if sourceWord = "" || cognateWord = "" || sourceLang = "" || cognateLang = "" then false
  else if sourceLang = cognateLang then false
  else
    let sourceLower := jsToLower sourceWord
    let cognateLower := jsToLower cognateWord
    if natDist sourceLower.data.length cognateLower.data.length > 4 then false
    else if 4 * commonDistinct sourceLower.data cognateLower.data
        < max sourceLower.data.length cognateLower.data.length then false
    else areLanguageCompatible sourceLang cognateLang "cognate"

/-- Function `isValidEtymologicalConnection`: confidence floor (0.4 for `*`-forms, 0.5
otherwise), automatic acceptance of proto forms, then the semantic, language
and false-cognate filters. -/
def isValidEtymologicalConnection (c : Conn) (sourceWord : Word) : Bool :=
  let minConfidence : ℚ := if startsWithStar c.word.text then mkRat 2 5 else mkRat 1 2
  if c.relationship.confidence < minConfidence then false
  else if startsWithStar c.word.text || c.word.language = "ine-pro"
      || strContains c.word.language "pro" then true
  else if areSemanticallyUnrelated sourceWord.text c.word.text then false
  else if ! areLanguageCompatible sourceWord.language c.word.language c.relationship.type then false
  else if isSuspiciousCognate sourceWord.text c.word.text sourceWord.language c.word.language then false
  else true

/-- Function `isTrivialDerivative` from etymologyService.ts: same-language basic
inflections (plus a few derivational suffixes and negation prefixes) or the
family-specific cross-language shared-root check. -/
def basicInflections : List String := [ "ing", "ed", "s", "es", "ies", "er", "est" ]
def clearDerivatives : List String := [ "ly", "ness", "ment" ]
def basicNegationList : List String := [ "un", "dis", "non" ]

def isTrivialDerivative (sourceText targetText sourceLang targetLang : String) : Bool :=
  let source := jsTrim (jsToLower sourceText)
  let target := jsTrim (jsToLower targetText)
  if source = target then true
  else if sourceLang ≠ targetLang then
    isCrossLanguageDerivative source target sourceLang targetLang
  else
    basicInflections.any (cogSuffixHit source target)
    || clearDerivatives.any (fun suffix => target = source ++ suffix)
    || basicInflections.any (cogSuffixHit target source)
    || clearDerivatives.any (fun suffix => source = target ++ suffix)
    || basicNegationList.any (fun p => target = p ++ source || source = p ++ target)

/-- Function `getPriorityScore`: source priority plus relationship-type priority. -/
def getPriorityScore (source : Option String) (relationshipType : String) : ℕ :=
  (match source with
   | some "etymonline.com" => 3
   | some "wiktionary" => 2
   | some "dictionary-api" => 1
   | _ => 0)
  + (match relationshipType with
     | "etymology" => 3
     | "cognate" => 2
     | "ancestor" => 2
     | "borrowing" => 1
     | _ => 0)

/-! ### Deduplication -/

/-- The language component of the deduplication key: lower-cased (`und` when
empty), with `*`-prefixed texts forced to `ine-pro`. -/
def connLangNorm (c : Conn) : String :=
  if startsWithStar (jsToLower c.word.text) then "ine-pro"
  else jsToLower (jsOr c.word.language "und")

/-- The deduplication key `comparisonText + '_' + comparisonLang`. -/
def connKey (c : Conn) : String := jsToLower c.word.text ++ "_" ++ connLangNorm c

/-- The in-place language fix: a `*`-prefixed text gets language `ine-pro`. -/
def normStar (c : Conn) : Conn :=
  if startsWithStar (jsToLower c.word.text) then
    { c with word := { c.word with language := "ine-pro" } }
  else c

/-- Self-reference test against the query word. -/
def isSelfRef (sourceWord : Word) (c : Conn) : Bool :=
  jsToLower c.word.text = jsToLower sourceWord.text
    && connLangNorm c = jsToLower sourceWord.language

/-- The two `continue` guards of the dedup loop (self reference, failed
validation); no guard when no source word is supplied. -/
def dedupSkip (sourceWord : Option Word) (c : Conn) : Bool :=
  match sourceWord with
  | some w => isSelfRef w c || ! isValidEtymologicalConnection c w
  | none => false

/-- Replacement test: strictly higher composite priority, or equal priority
and strictly higher confidence. -/
def dedupReplaces (existing c : Conn) : Bool :=
  let existingPriority := getPriorityScore existing.relationship.source existing.relationship.type
  let newPriority := getPriorityScore c.relationship.source c.relationship.type
  decide (existingPriority < newPriority
    ∨ (newPriority = existingPriority ∧ existing.relationship.confidence < c.relationship.confidence))

/-- Replace the first occurrence of `old` (JS replaces at `indexOf(existing)`,
reference equality; values in `result` are pairwise key-distinct, so value
equality coincides). -/
def replaceFirst : List Conn → Conn → Conn → List Conn
  | [], _, _ => []
  | x :: xs, old, new => if x = old then new :: xs else x :: replaceFirst xs old new

/-- The dedup loop: `seen` is the key map, `result` the output list. -/
def dedupGo (sourceWord : Option Word) : List Conn → List (String × Conn) → List Conn → List Conn
  | [], _, result => result
  | c :: rest, seen, result =>
    if c.word.text = "" then dedupGo sourceWord rest seen result
    else if dedupSkip sourceWord (normStar c) then dedupGo sourceWord rest seen result
    else
      match lookupAssoc seen (connKey (normStar c)) with
      | none =>
        dedupGo sourceWord rest ((connKey (normStar c), normStar c) :: seen) (result ++ [normStar c])
      | some existing =>
        if dedupReplaces existing (normStar c) then
          dedupGo sourceWord rest
            (seen.map (fun p => if p.1 == connKey (normStar c) then (connKey (normStar c), normStar c) else p))
            (replaceFirst result existing (normStar c))
        else dedupGo sourceWord rest seen result

/-- Function `deduplicateConnections`. -/
def deduplicateConnections (connections : List Conn) (sourceWord : Option Word) : List Conn :=
  dedupGo sourceWord connections [] []

/-! ### Sorting -/

/-- Priority tier of the final sort: `{high: 3, medium: 2, low: 1}[p] || 0`. -/
def priorityTier (c : Conn) : ℕ :=
  match c.relationship.priority with
  | some p => if p = "high" then 3 else if p = "medium" then 2 else if p = "low" then 1 else 0
  | none => 0

/-- Relation holding when `a` may stay before `b` under the final comparator (descending priority
tier, then descending confidence); the stable-sort order relation. -/
def connBefore (a b : Conn) : Prop :=
  priorityTier b < priorityTier a
  ∨ (priorityTier a = priorityTier b ∧ b.relationship.confidence ≤ a.relationship.confidence)

instance : DecidableRel connBefore := fun _ _ =>
  inferInstanceAs (Decidable (_ ∨ _))

instance : IsTotal Conn connBefore := by
  constructor
  intro a b
  rcases lt_trichotomy (priorityTier a) (priorityTier b) with h | h | h
  · exact Or.inr (Or.inl h)
  · rcases le_total b.relationship.confidence a.relationship.confidence with h2 | h2
    · exact Or.inl (Or.inr ⟨h, h2⟩)
    · exact Or.inr (Or.inr ⟨h.symm, h2⟩)
  · exact Or.inl (Or.inl h)

instance : IsTrans Conn connBefore := by
  constructor
  intro a b c hab hbc
  rcases hab with h1 | ⟨h1, h1c⟩
  · rcases hbc with h2 | ⟨h2, _⟩
    · exact Or.inl (h2.trans h1)
    · exact Or.inl (h2 ▸ h1)
  · rcases hbc with h2 | ⟨h2, h2c⟩
    · exact Or.inl (h1 ▸ h2)
    · exact Or.inr ⟨h1.trans h2, h2c.trans h1c⟩

/-- The final sort (stable, like `Array.prototype.sort`). -/
def sortConnections (l : List Conn) : List Conn := List.insertionSort connBefore l

/-! ### Pipeline assembly -/

/-- The origin segments produced by `parseOriginText` from a dictionary
origin sentence (the parse itself is regex scraping over free text; its
output shape is quantified over, which covers every origin string). -/
structure OriginSegment where
  type : String
  languageCode : String
  word : String
  deriving DecidableEq, Repr

/-- Function `connectionsFromOrigin`: each segment becomes a confidence-0.6
connection. -/
def connectionsFromOrigin (segments : List OriginSegment) : List Conn :=
  segments.map (fun segment =>
    { word := { text := segment.word, language := segment.languageCode },
      relationship := { type := segment.type, confidence := mkRat 3 5 } })

/-- External inputs to one query: the etymonline and wiktionary connection
lists (absent when the lookup failed) and the parsed dictionary origin
segments. -/
structure PipelineInput where
  etymonline : Option (List RawConn)
  wiktionary : Option (List RawConn)
  originSegments : Option (List OriginSegment)
  deriving DecidableEq, Repr

/-- The language list passed to `findCognates`. -/
def cognateLanguages : List String :=
  [ "en", "es", "fr", "de", "it", "pt", "la", "gr", "ru", "pl", "nl", "da", "sv", "no" ]

/-- The filter applied to cognate results: confidence at least 0.85, a
semantic field and a concept present (empty strings are falsy), and the
linguistic validity check. -/
def keptCognates (normalizedWord normalizedLanguage : String) : List Cognate :=
  (findCognates normalizedWord normalizedLanguage cognateLanguages).filter
    (fun cognate =>
      ! decide (cognate.confidence < mkRat 85 100)
      && (cognate.semanticField).getD "" ≠ ""
      && (cognate.concept).getD "" ≠ ""
      && isValidCognateConnection normalizedWord cognate.word normalizedLanguage cognate.language)

/-- Stamp a priority and a source tag. -/
def stamp (priority : String) (source : Option String) (c : Conn) : Conn :=
  { c with relationship := { c.relationship with priority := some priority, source := source } }

/-- The etymonline confidence boost: `min(confidence + 0.1, 0.95)` when the
confidence is truthy (nonzero). -/
def boostEtymonline (c : Conn) : Conn :=
  if c.relationship.confidence ≠ 0 then
    { c with relationship :=
        { c.relationship with
            confidence := min (c.relationship.confidence + mkRat 1 10) (mkRat 19 20) } }
  else c

/-- Collect the candidate connections of one query in source order:
etymonline (boosted, high), wiktionary (medium), dictionary origin (low),
validated cognates (medium, no source tag). -/
def collectConnections (sourceWord : Word) (inp : PipelineInput) : List Conn :=
  (match inp.etymonline with
   | some conns => conns.filterMap (fun rc =>
       (normalizeConnection sourceWord rc).map
         (fun nc => stamp "high" (some "etymonline.com") (boostEtymonline nc)))
   | none => [])
  ++ (match inp.wiktionary with
      | some conns => conns.filterMap (fun rc =>
          (normalizeConnection sourceWord rc).map (stamp "medium" (some "wiktionary")))
      | none => [])
  ++ (match inp.originSegments with
      | some segments => (connectionsFromOrigin segments).map (stamp "low" (some "dictionary-api"))
      | none => [])
  ++ (keptCognates sourceWord.text sourceWord.language).map (fun cognate =>
       { word := { text := cognate.word, language := cognate.language },
         relationship := { type := "cognate", confidence := cognate.confidence,
                           priority := some "medium", source := none } })

/-- The query's source word: trimmed text, lower-cased language defaulting
to `en`. -/
def querySourceWord (word language : String) : Word :=
  { text := jsTrim word, language := jsToLower (jsOr language "en") }

/-- Filter trivial derivatives, deduplicate, sort: the merge core applied to
an already collected candidate list. -/
def mergeCore (sourceWord : Word) (connections : List Conn) : List Conn :=
  sortConnections
    (deduplicateConnections
      (connections.filter (fun connection =>
        ! isTrivialDerivative sourceWord.text connection.word.text
            sourceWord.language connection.word.language))
      (some sourceWord))

/-- The merged connection list of one query (the list the service maps into
its response; the final projection keeps order, word, type, confidence and
source tag). -/
def mergedConnections (word language : String) (inp : PipelineInput) : List Conn :=
  mergeCore (querySourceWord word language) (collectConnections (querySourceWord word language) inp)

/-- A connection of the service response. -/
structure OutConnection where
  word : Word
  type : String
  confidence : ℚ
  source : String
  deriving DecidableEq, Repr

def toOutput (c : Conn) : OutConnection :=
  { word := c.word, type := c.relationship.type, confidence := c.relationship.confidence,
    source := jsOr ((c.relationship.source).getD "") "unknown" }

structure EtymologyData where
  sourceWord : Word
  connections : List OutConnection
  deriving DecidableEq, Repr

/-- Function `findEtymologicalConnections`: throws (`Except.error`) when the trimmed
word is empty, otherwise returns the merged, deduplicated, sorted list. -/
def findEtymologicalConnections (word language : String) (inp : PipelineInput) :
    Except String EtymologyData :=
  if jsTrim word = "" then Except.error "Word parameter is required"
  else
    Except.ok
      { sourceWord := querySourceWord word language,
        connections := (mergedConnections word language inp).map toOutput }

/-! ## `src/server/services/etymonlineAPI.ts` -/

/-- Function `areSemanticallySuspicious` from etymonlineAPI.ts (the HTML extractor's
filter; lists and category checks differ from the service-level filter). -/
def basicElementsEO : List String := [ "fire", "water", "earth", "air", "wind" ]
def colorsEO : List String := [ "red", "blue", "green", "yellow", "black", "white" ]
def numbersEO : List String := [ "one", "two", "three", "four", "five" ]

def suspiciousPairsEO : List (String × String) :=
  [ ( "water", "fire" ), ( "fire", "water" ),
    ( "water", "punjab" ), ( "punjab", "water" ),
    ( "test", "forest" ), ( "forest", "test" ) ]

def areSemanticallySuspicious (word sourceWord : String) : Bool :=
  let wordLower := jsToLower word
  let sourceLower := jsToLower sourceWord
  let wordIsElement := basicElementsEO.contains wordLower
  let sourceIsElement := basicElementsEO.contains sourceLower
  let wordIsColor := colorsEO.contains wordLower
  let sourceIsColor := colorsEO.contains sourceLower
  let wordIsNumber := numbersEO.contains wordLower
  let sourceIsNumber := numbersEO.contains sourceLower
  if (wordIsElement && sourceIsColor) || (wordIsColor && sourceIsElement) then true
  else if (wordIsElement && sourceIsNumber) || (wordIsNumber && sourceIsElement) then true
  else if startsWithStar wordLower || startsWithStar sourceLower then false
  else
    suspiciousPairsEO.any (fun p =>
      (wordLower = p.1 && sourceLower = p.2) || (wordLower = p.2 && sourceLower = p.1))

/-! ### `normalizeEtymologyKey` -/

/-- Character class of the embedded reconstructed-root regex
`[a-zA-Z₀-₉ʰₑʷβɟḱĝʷʲʼ-]`. -/
def isPieChar (c : Char) : Bool :=
  ('a' ≤ c && c ≤ 'z') || ('A' ≤ c && c ≤ 'Z') || ('₀' ≤ c && c ≤ '₉')
  || c = 'ʰ' || c = 'ₑ' || c = 'ʷ' || c = 'β' || c = 'ɟ' || c = 'ḱ' || c = 'ĝ'
  || c = 'ʲ' || c = 'ʼ' || c = '-'

/-- First match of `/\*([class]+)/`: scan for a `*` followed by at least one
class character; the captured group is the maximal class-character run. -/
def pieFind : List Char → Option (List Char)
  | [] => none
  | c :: rest =>
    if c = '*' then
      let run := rest.takeWhile isPieChar
      if run.isEmpty then pieFind rest else some run
    else pieFind rest

/-- Case-insensitive literal prefix: remainder after the (lower-cased)
literal. -/
def stripCI : List Char → List Char → Option (List Char)
  | [], l => some l
  | _ :: _, [] => none
  | a :: as, b :: bs => if lowerChar b = a then stripCI as bs else none

/-- Pattern `\s+`: at least one whitespace character, greedy. -/
def stripWs1 : List Char → Option (List Char)
  | c :: rest => if isWsChar c then some (rest.dropWhile isWsChar) else none
  | [] => none

def isAsciiAlpha (c : Char) : Bool := ('a' ≤ c && c ≤ 'z') || ('A' ≤ c && c ≤ 'Z')
def isAlphaHyphen (c : Char) : Bool := isAsciiAlpha c || c = '-'

/-- Pattern `^(Proto-Indo-European|PIE)\s+` (case-insensitive): the stripped
remainder, or the input when the regex does not match. -/
def stripPieQualifier (l : List Char) : List Char :=
  match stripCI "proto-indo-european".data l with
  | some r =>
    match stripWs1 r with
    | some r2 => r2
    | none =>
      match stripCI "pie".data l with
      | some r3 => (stripWs1 r3).getD l
      | none => l
  | none =>
    match stripCI "pie".data l with
    | some r3 => (stripWs1 r3).getD l
    | none => l

/-- One alternative `lit[class]+\s+` of the language-qualifier regex: the
literal (case-insensitive), then a nonempty maximal run of `cls` characters,
then whitespace. -/
def stripQualifierAlt (lit : String) (cls : Char → Bool) (l : List Char) : Option (List Char) :=
  match stripCI lit.data l with
  | some r =>
    let run := r.takeWhile cls
    if run.isEmpty then none else stripWs1 (r.drop run.length)
  | none => none

/-- Pattern `^(Proto-[A-Za-z-]+|Old [A-Za-z]+|Middle [A-Za-z]+|Ancient [A-Za-z]+|[A-Za-z]+)\s+`
(case-insensitive): alternatives tried in order; the `[A-Za-z]+` run before
`\s+` is maximal (backtracking inside the run cannot reach a whitespace). -/
def stripLanguageQualifier (l : List Char) : List Char :=
  match stripQualifierAlt "proto-" isAlphaHyphen l with
  | some r => r
  | none =>
    match stripQualifierAlt "old " isAsciiAlpha l with
    | some r => r
    | none =>
      match stripQualifierAlt "middle " isAsciiAlpha l with
      | some r => r
      | none =>
        match stripQualifierAlt "ancient " isAsciiAlpha l with
        | some r => r
        | none =>
          let run := l.takeWhile isAsciiAlpha
          if run.isEmpty then l else ((stripWs1 (l.drop run.length)).getD l)

/-- Trailing punctuation stripped by `replace(/[.,;:!?]+$/, '')`. -/
def isTrailPunct (c : Char) : Bool :=
  c = '.' || c = ',' || c = ';' || c = ':' || c = '!' || c = '?'

/-- Function `normalizeEtymologyKey` from etymonlineAPI.ts. -/
def normalizeEtymologyKey (etymologyString : String) : String :=
  if etymologyString = "" then ""
  else
    let normalized := jsTrim etymologyString
    match pieFind normalized.data with
    | some run => ⟨'*' :: run.map lowerChar⟩
    | none =>
      let l2 := stripLanguageQualifier (stripPieQualifier normalized.data)
      let n2 := jsToLower (jsTrim ⟨l2⟩)
      if startsWithStar n2 then n2
      else ⟨(n2.data.reverse.dropWhile isTrailPunct).reverse⟩

/-! ### Cross-reference enhancement -/

/-- An entry of the process-wide etymology database. -/
structure WordEntry where
  word : String
  language : String
  etymologicalForm : String
  etymologicalLanguage : String
  relationshipType : String
  confidence : ℚ
  notes : String
  sharedRoot : String
  deriving DecidableEq, Repr

/-- An etymonline connection as consumed by the enhancement step (fields it
reads and writes). -/
structure EConnRel where
  type : String
  confidence : ℚ
  notes : String
  origin : Option String := none
  sharedRoot : Option String := none
  isFromCrossReference : Bool := false
  deriving DecidableEq, Repr

structure EConn where
  text : String
  language : String
  partOfSpeech : String
  rel : EConnRel
  deriving DecidableEq, Repr

/-- Model of `relationship.sharedRoot || relationship.origin` with empty strings
falsy. -/
def sharedRootOrOrigin (r : EConnRel) : Option String :=
  if (r.sharedRoot).getD "" ≠ "" then r.sharedRoot
  else if (r.origin).getD "" ≠ "" then r.origin
  else none

/-- The mapped potential cognate of the cross-reference cluster (confidence
capped at 0.75 by `Math.min(0.75, entry.confidence)`). -/
structure XrefCognate where
  word : String
  language : String
  etymologicalForm : String
  sharedRoot : String
  confidence : ℚ
  notes : String
  deriving DecidableEq, Repr

def toXrefCognate (sharedRoot sourceWord : String) (entry : WordEntry) : XrefCognate :=
  { word := entry.word, language := entry.language,
    etymologicalForm := entry.etymologicalForm, sharedRoot := sharedRoot,
    confidence := min (mkRat 3 4) entry.confidence,
    notes := "Shares etymology " ++ sharedRoot ++ " with " ++ sourceWord }

/-- Function `isValidCrossReferenceConnection`: non-identical words, not suspicious,
normalized root of length at least 3 and not in the generic-root list. -/
def genericRoots : List String :=
  [ "*er", "*ed", "*in", "*on", "*an", "*el", "the", "and", "from" ]

def isValidCrossReferenceConnection (sourceWord targetWord sharedRoot : String) : Bool :=
  if sourceWord = "" || targetWord = "" || sharedRoot = "" then false
  else if jsToLower sourceWord = jsToLower targetWord then false
  else if areSemanticallySuspicious sourceWord targetWord then false
  else
    let cleanRoot := normalizeEtymologyKey sharedRoot
    if cleanRoot.data.length < 3 then false
    else ! genericRoots.contains (jsToLower cleanRoot)

/-- Descending stable order on cross-reference cognate confidence. -/
def xrefBefore (a b : XrefCognate) : Prop := b.confidence ≤ a.confidence

instance : DecidableRel xrefBefore := fun a b =>
  inferInstanceAs (Decidable (b.confidence ≤ a.confidence))
instance : IsTotal XrefCognate xrefBefore := ⟨fun a b => le_total b.confidence a.confidence⟩
instance : IsTrans XrefCognate xrefBefore := ⟨fun _ _ _ h h2 => le_trans h2 h⟩

/-- The new cognate connections synthesized for one existing connection by
the shared-root path of `enhanceWithCrossReferences`: cluster members other
than the query, confidence-capped, validated, kept above 0.75, sorted, top 2,
cross-reference-validated. -/
def crossRefAdditionsFor (db : List (String × List WordEntry)) (sourceWord : String)
    (conn : EConn) : List EConn :=
  match sharedRootOrOrigin conn.rel with
  | none => []
  | some sharedRoot =>
    let etymologyKey := normalizeEtymologyKey sharedRoot
    match lookupAssoc db etymologyKey with
    | none => []
    | some relatedWords =>
      if relatedWords.length > 1 then
        let potentialCognates := (relatedWords.filter (fun entry => entry.word ≠ sourceWord)).map
          (toXrefCognate sharedRoot sourceWord)
        let validCognates := potentialCognates.filter (fun cognate =>
          ! areSemanticallySuspicious cognate.word sourceWord
          && ! decide (cognate.confidence < mkRat 13 20))
        if validCognates.length > 0 then
          let topCognates :=
            (List.insertionSort xrefBefore
              (validCognates.filter (fun cognate => decide (mkRat 3 4 < cognate.confidence)))).take 2
          topCognates.filterMap (fun cognate =>
            if isValidCrossReferenceConnection sourceWord cognate.word sharedRoot then
              some { text := cognate.word, language := cognate.language,
                     partOfSpeech := "cognate",
                     rel := { type := "etymological_cognate",
                              confidence := min (cognate.confidence * mkRat 9 10) (mkRat 85 100),
                              notes := cognate.notes,
                              origin := some sharedRoot, sharedRoot := some sharedRoot,
                              isFromCrossReference := true } }
            else none)
        else []
      else []

/-- All connections added by the shared-root path of
`enhanceWithCrossReferences` for one query (the shortened-forms sub-index path
is separate and adds `shortened_to` connections only). -/
def crossRefAdditions (db : List (String × List WordEntry)) (sourceWord : String)
    (connections : List EConn) : List EConn :=
  connections.flatMap (crossRefAdditionsFor db sourceWord)

/-! ## Character and string lemmas -/

def lowercaseAscii : List Char :=
  [ 'a', 'b', 'c', 'd', 'e', 'f', 'g', 'h', 'i', 'j', 'k', 'l', 'm',
    'n', 'o', 'p', 'q', 'r', 's', 't', 'u', 'v', 'w', 'x', 'y', 'z' ]

lemma lowerChar_cases (c : Char) : lowerChar c = c ∨ lowerChar c ∈ lowercaseAscii := by
  unfold lowerChar
  cases hf : upperLowerPairs.find? (fun p => p.1 == c) with
  | none => exact Or.inl rfl
  | some p =>
    right
    show p.2 ∈ lowercaseAscii
    have hp := List.mem_of_find?_eq_some hf
    fin_cases hp <;> decide

/-- The facts needed about characters of the lower-case ASCII range. -/
lemma mem_lowercase_props {d : Char} (h : d ∈ lowercaseAscii) :
    lowerChar d = d ∧ isPieChar d = true ∧ isWsChar d = false ∧ d ≠ '*' := by
  fin_cases h <;> refine ⟨by decide, by decide, by decide, by decide⟩

lemma lowerChar_idem (c : Char) : lowerChar (lowerChar c) = lowerChar c := by
  rcases lowerChar_cases c with h | h
  · rw [h, h]
  · rw [(mem_lowercase_props h).1]

lemma lowerChar_star (c : Char) : lowerChar c = '*' ↔ c = '*' := by
  constructor
  · intro h
    rcases lowerChar_cases c with h2 | h2
    · rwa [h2] at h
    · rw [h] at h2
      exact absurd h2 (by decide)
  · intro h
    subst h
    decide

lemma isWsChar_true_elim {c : Char} (h : isWsChar c = true) :
    c = ' ' ∨ c = '\t' ∨ c = '\n' ∨ c = '\r' := by
  have h2 : ((c = ' ' ∨ c = '\t') ∨ c = '\n') ∨ c = '\r' := by
    simpa [isWsChar] using h
  tauto

lemma isPieChar_lowerChar {c : Char} (h : isPieChar c = true) : isPieChar (lowerChar c) = true := by
  rcases lowerChar_cases c with h2 | h2
  · rwa [h2]
  · exact (mem_lowercase_props h2).2.1

lemma isWsChar_lowerChar_false {c : Char} (h : isWsChar c = false) :
    isWsChar (lowerChar c) = false := by
  rcases lowerChar_cases c with h2 | h2
  · rwa [h2]
  · exact (mem_lowercase_props h2).2.2.1

lemma isPieChar_not_ws {c : Char} (h : isPieChar c = true) : isWsChar c = false := by
  cases hws : isWsChar c with
  | false => rfl
  | true =>
    rcases isWsChar_true_elim hws with rfl | rfl | rfl | rfl <;> simp_all [isPieChar]

lemma data_mk (l : List Char) : (⟨l⟩ : String).data = l := rfl

lemma jsToLower_data (s : String) : (jsToLower s).data = s.data.map lowerChar := rfl

lemma startsWithStar_jsToLower (s : String) : startsWithStar (jsToLower s) = startsWithStar s := by
  unfold startsWithStar
  rw [jsToLower_data]
  cases s.data with
  | nil => rfl
  | cons c l =>
    simp only [List.map_cons]
    by_cases h : c = '*'
    · subst h
      simp [show lowerChar '*' = '*' from by decide]
    · have h2 : ¬ lowerChar c = '*' := fun hc => h ((lowerChar_star c).mp hc)
      simp [h, h2]

lemma dropWhile_eq_self_of_forall {p : Char → Bool} {l : List Char}
    (h : ∀ c ∈ l, p c = false) : l.dropWhile p = l := by
  cases l with
  | nil => rfl
  | cons c rest =>
    rw [List.dropWhile_cons]
    simp [h c (List.mem_cons_self c rest)]

lemma jsTrim_of_forall_not_ws {l : List Char} (h : ∀ c ∈ l, isWsChar c = false) :
    jsTrim ⟨l⟩ = ⟨l⟩ := by
  unfold jsTrim
  rw [data_mk]
  rw [dropWhile_eq_self_of_forall h]
  rw [dropWhile_eq_self_of_forall (fun c hc => h c (List.mem_reverse.mp hc))]
  simp

lemma takeWhile_eq_self_of_forall {p : Char → Bool} {l : List Char}
    (h : ∀ c ∈ l, p c = true) : l.takeWhile p = l := by
  induction l with
  | nil => rfl
  | cons c rest ih =>
    rw [List.takeWhile_cons]
    simp only [h c (List.mem_cons_self c rest)]
    simp [ih (fun x hx => h x (List.mem_cons_of_mem c hx))]

lemma jsToLower_trim_eq {s t : String} (h : jsToLower s = jsToLower t) :
    jsTrim (jsToLower s) = jsTrim (jsToLower t) := by rw [h]

/-! ## Association list and replacement lemmas -/

lemma lookupAssoc_eq_none {α : Type} {m : List (String × α)} {k : String}
    (h : lookupAssoc m k = none) : ∀ p ∈ m, p.1 ≠ k := by
  intro p hp
  unfold lookupAssoc at h
  rcases hf : m.find? (fun q => q.1 == k) with _ | q
  · have := List.find?_eq_none.mp hf p hp
    simpa using this
  · rw [hf] at h
    simp at h

lemma lookupAssoc_eq_some {α : Type} {m : List (String × α)} {k : String} {v : α}
    (h : lookupAssoc m k = some v) : ∃ p ∈ m, p.1 = k ∧ p.2 = v := by
  unfold lookupAssoc at h
  rcases hf : m.find? (fun q => q.1 == k) with _ | q
  · rw [hf] at h
    simp at h
  · rw [hf] at h
    simp at h
    refine ⟨q, List.mem_of_find?_eq_some hf, ?_, h⟩
    have := List.find?_some hf
    simpa using this

lemma mem_replaceFirst {l : List Conn} {old new c : Conn}
    (h : c ∈ replaceFirst l old new) : c ∈ l ∨ c = new := by
  induction l with
  | nil => simp [replaceFirst] at h
  | cons x xs ih =>
    rw [replaceFirst] at h
    by_cases hx : x = old
    · rw [if_pos hx] at h
      rcases List.mem_cons.mp h with rfl | h2
      · exact Or.inr rfl
      · exact Or.inl (List.mem_cons_of_mem x h2)
    · rw [if_neg hx] at h
      rcases List.mem_cons.mp h with rfl | h2
      · exact Or.inl (List.mem_cons_self _ _)
      · rcases ih h2 with h3 | h3
        · exact Or.inl (List.mem_cons_of_mem _ h3)
        · exact Or.inr h3

lemma mem_replaceFirst_of_ne {l : List Conn} {old new v : Conn}
    (hv : v ∈ l) (hne : v ≠ old) : v ∈ replaceFirst l old new := by
  induction l with
  | nil => simp at hv
  | cons x xs ih =>
    rw [replaceFirst]
    by_cases hx : x = old
    · rw [if_pos hx]
      rcases List.mem_cons.mp hv with rfl | h2
      · exact absurd hx hne
      · exact List.mem_cons_of_mem _ h2
    · rw [if_neg hx]
      rcases List.mem_cons.mp hv with rfl | h2
      · exact List.mem_cons_self _ _
      · exact List.mem_cons_of_mem _ (ih h2)

lemma new_mem_replaceFirst {l : List Conn} {old new : Conn}
    (hv : old ∈ l) : new ∈ replaceFirst l old new := by
  induction l with
  | nil => simp at hv
  | cons x xs ih =>
    rw [replaceFirst]
    by_cases hx : x = old
    · rw [if_pos hx]
      exact List.mem_cons_self _ _
    · rw [if_neg hx]
      rcases List.mem_cons.mp hv with rfl | h2
      · exact absurd rfl hx
      · exact List.mem_cons_of_mem _ (ih h2)

lemma replaceFirst_map_eq {f : Conn → String} {l : List Conn} {old new : Conn}
    (h : f new = f old) : (replaceFirst l old new).map f = l.map f := by
  induction l with
  | nil => rfl
  | cons x xs ih =>
    rw [replaceFirst]
    by_cases hx : x = old
    · rw [if_pos hx, List.map_cons, List.map_cons, h, hx]
    · rw [if_neg hx, List.map_cons, List.map_cons, ih]

lemma seenSet_map_fst (seen : List (String × Conn)) (key : String) (v : Conn) :
    ((seen.map (fun p => if p.1 == key then (key, v) else p)).map Prod.fst)
      = seen.map Prod.fst := by
  rw [List.map_map]
  apply List.map_congr_left
  intro p _
  by_cases h : (p.1 == key) = true
  · simp only [Function.comp_apply, if_pos h]
    exact (eq_of_beq h).symm
  · simp only [Function.comp_apply, if_neg h]

/-! ## Dedup invariants -/

lemma normStar_text (c : Conn) : (normStar c).word.text = c.word.text := by
  unfold normStar
  split <;> rfl

lemma normStar_rel (c : Conn) : (normStar c).relationship = c.relationship := by
  unfold normStar
  split <;> rfl

lemma normStar_lang_of_not_star {c : Conn}
    (h : ¬ startsWithStar (jsToLower c.word.text) = true) :
    (normStar c).word.language = c.word.language := by
  unfold normStar
  rw [if_neg h]

lemma connLangNorm_normStar (c : Conn) : connLangNorm (normStar c) = connLangNorm c := by
  by_cases h : startsWithStar (jsToLower c.word.text) = true
  · unfold connLangNorm
    rw [normStar_text, if_pos h, if_pos h]
  · unfold connLangNorm
    rw [normStar_text, if_neg h, if_neg h, normStar_lang_of_not_star h]

lemma connKey_normStar (c : Conn) : connKey (normStar c) = connKey c := by
  unfold connKey
  rw [normStar_text, connLangNorm_normStar]

/-- Every validated connection has confidence at least 0.4. -/
lemma valid_conf_lower {c : Conn} {w : Word}
    (h : isValidEtymologicalConnection c w = true) :
    mkRat 2 5 ≤ c.relationship.confidence := by
  unfold isValidEtymologicalConnection at h
  by_cases hlt : c.relationship.confidence <
      (if startsWithStar c.word.text then mkRat 2 5 else mkRat 1 2)
  · rw [if_pos hlt] at h
    exact absurd h (by simp)
  · push_neg at hlt
    refine le_trans ?_ hlt
    split
    · exact le_refl _
    · norm_num [Rat.mkRat_eq_div]

/-- Provenance of dedup results: every output element is the star-normalized
form of an input element whose text is nonempty and which passed the skip
guards (or was already in the accumulator). -/
lemma mem_dedupGo {sourceWord : Option Word} {l : List Conn}
    {seen : List (String × Conn)} {result : List Conn} {c : Conn}
    (h : c ∈ dedupGo sourceWord l seen result) :
    c ∈ result ∨ ∃ y ∈ l, c = normStar y ∧ y.word.text ≠ ""
      ∧ dedupSkip sourceWord (normStar y) = false := by
  induction l generalizing seen result with
  | nil => exact Or.inl h
  | cons x rest ih =>
    have lift : (c ∈ result ∨ ∃ y ∈ rest, c = normStar y ∧ y.word.text ≠ ""
        ∧ dedupSkip sourceWord (normStar y) = false) →
        (c ∈ result ∨ ∃ y ∈ x :: rest, c = normStar y ∧ y.word.text ≠ ""
          ∧ dedupSkip sourceWord (normStar y) = false) := by
      rintro (h2 | ⟨y, hy, h3⟩)
      · exact Or.inl h2
      · exact Or.inr ⟨y, List.mem_cons_of_mem x hy, h3⟩
    rw [dedupGo] at h
    by_cases h1 : x.word.text = ""
    · rw [if_pos h1] at h
      exact lift (ih h)
    · rw [if_neg h1] at h
      by_cases h2 : dedupSkip sourceWord (normStar x) = true
      · rw [if_pos h2] at h
        exact lift (ih h)
      · have h2f : dedupSkip sourceWord (normStar x) = false := by
          revert h2
          cases dedupSkip sourceWord (normStar x) <;> simp
        rw [if_neg h2] at h
        rcases hl : lookupAssoc seen (connKey (normStar x)) with _ | existing
        · simp only [hl] at h
          rcases ih h with h3 | h3
          · rcases List.mem_append.mp h3 with h4 | h4
            · exact Or.inl h4
            · have : c = normStar x := by simpa using h4
              exact Or.inr ⟨x, List.mem_cons_self x rest, this, h1, h2f⟩
          · exact lift (Or.inr h3)
        · simp only [hl] at h
          by_cases hr : dedupReplaces existing (normStar x) = true
          · rw [if_pos hr] at h
            rcases ih h with h3 | h3
            · rcases mem_replaceFirst h3 with h4 | h4
              · exact Or.inl h4
              · exact Or.inr ⟨x, List.mem_cons_self x rest, h4, h1, h2f⟩
            · exact lift (Or.inr h3)
          · rw [if_neg hr] at h
            exact lift (ih h)

/-- The key-map invariant of the dedup loop. -/
structure DedupInv (seen : List (String × Conn)) (result : List Conn) : Prop where
  keys : ∀ p ∈ seen, connKey p.2 = p.1
  vals : ∀ p ∈ seen, p.2 ∈ result
  covered : ∀ c ∈ result, connKey c ∈ seen.map Prod.fst
  nodup : (result.map connKey).Nodup

lemma dedupGo_nodup_keys {sourceWord : Option Word} {l : List Conn}
    {seen : List (String × Conn)} {result : List Conn}
    (inv : DedupInv seen result) :
    ((dedupGo sourceWord l seen result).map connKey).Nodup := by
  induction l generalizing seen result with
  | nil => exact inv.nodup
  | cons x rest ih =>
    rw [dedupGo]
    by_cases h1 : x.word.text = ""
    · rw [if_pos h1]
      exact ih inv
    · rw [if_neg h1]
      by_cases h2 : dedupSkip sourceWord (normStar x) = true
      · rw [if_pos h2]
        exact ih inv
      · rw [if_neg h2]
        rcases hl : lookupAssoc seen (connKey (normStar x)) with _ | existing
        · simp only [hl]
          have hnotin : connKey (normStar x) ∉ seen.map Prod.fst := by
            intro hmem
            rcases List.mem_map.mp hmem with ⟨p, hp, hpk⟩
            exact lookupAssoc_eq_none hl p hp hpk
          refine ih ?_
          constructor
          · intro p hp
            rcases List.mem_cons.mp hp with rfl | hp2
            · rfl
            · exact inv.keys p hp2
          · intro p hp
            rcases List.mem_cons.mp hp with rfl | hp2
            · exact List.mem_append.mpr (Or.inr (by simp))
            · exact List.mem_append.mpr (Or.inl (inv.vals p hp2))
          · intro c hc
            rcases List.mem_append.mp hc with hc2 | hc2
            · have := inv.covered c hc2
              simp only [List.map_cons]
              exact List.mem_cons_of_mem _ this
            · have : c = normStar x := by simpa using hc2
              subst this
              simp
          · rw [List.map_append]
            refine List.Nodup.append inv.nodup (by simp) ?_
            intro k hk hk2
            have hk3 : k = connKey (normStar x) := by simpa using hk2
            subst hk3
            rcases List.mem_map.mp hk with ⟨c, hc, hck⟩
            exact hnotin (hck ▸ inv.covered c hc)
        · simp only [hl]
          rcases lookupAssoc_eq_some hl with ⟨p, hp, hpk, hpv⟩
          have hex_key : connKey existing = connKey (normStar x) := by
            rw [← hpv, inv.keys p hp, hpk]
          have hex_mem : existing ∈ result := hpv ▸ inv.vals p hp
          by_cases hr : dedupReplaces existing (normStar x) = true
          · rw [if_pos hr]
            refine ih ?_
            constructor
            · intro q hq
              rcases List.mem_map.mp hq with ⟨q0, hq0, hqeq⟩
              by_cases hqk : (q0.1 == connKey (normStar x)) = true
              · rw [if_pos hqk] at hqeq
                rw [← hqeq]
              · rw [if_neg (by simpa using hqk)] at hqeq
                rw [← hqeq]
                exact inv.keys q0 hq0
            · intro q hq
              rcases List.mem_map.mp hq with ⟨q0, hq0, hqeq⟩
              by_cases hqk : (q0.1 == connKey (normStar x)) = true
              · rw [if_pos hqk] at hqeq
                rw [← hqeq]
                exact new_mem_replaceFirst hex_mem
              · rw [if_neg (by simpa using hqk)] at hqeq
                rw [← hqeq]
                refine mem_replaceFirst_of_ne (inv.vals q0 hq0) ?_
                intro hcontra
                have : connKey q0.2 = connKey existing := by rw [hcontra]
                rw [inv.keys q0 hq0, hex_key] at this
                simp [this] at hqk
            · intro c hc
              have hmaps : (replaceFirst result existing (normStar x)).map connKey
                  = result.map connKey :=
                replaceFirst_map_eq hex_key.symm
              have hck : connKey c ∈ result.map connKey := by
                rw [← hmaps]
                exact List.mem_map_of_mem connKey hc
              rcases List.mem_map.mp hck with ⟨c0, hc0, hc0k⟩
              have hcov := inv.covered c0 hc0
              rw [hc0k] at hcov
              rw [seenSet_map_fst]
              exact hcov
            · have hmaps : (replaceFirst result existing (normStar x)).map connKey
                  = result.map connKey :=
                replaceFirst_map_eq hex_key.symm
              rw [hmaps]
              exact inv.nodup
          · rw [if_neg hr]
            exact ih inv

/-! ## Merge-core lemmas -/

lemma mem_sortConnections {l : List Conn} {c : Conn} :
    c ∈ sortConnections l ↔ c ∈ l :=
  (List.perm_insertionSort connBefore l).mem_iff

lemma sorted_sortConnections (l : List Conn) :
    (sortConnections l).Pairwise connBefore :=
  List.sorted_insertionSort connBefore l

/-- Provenance through the full merge core: every output connection is the
star-normalized form of a candidate that survived the trivial-derivative
filter and the dedup guards. -/
lemma mem_mergeCore {sourceWord : Word} {conns : List Conn} {c : Conn}
    (h : c ∈ mergeCore sourceWord conns) :
    ∃ y ∈ conns, c = normStar y ∧ y.word.text ≠ ""
      ∧ dedupSkip (some sourceWord) (normStar y) = false
      ∧ isTrivialDerivative sourceWord.text y.word.text
          sourceWord.language y.word.language = false := by
  unfold mergeCore at h
  have h2 := mem_sortConnections.mp h
  rcases mem_dedupGo h2 with h3 | h3
  · simp at h3
  · rcases h3 with ⟨y, hy, hcy, htext, hskip⟩
    have hy2 := List.mem_filter.mp hy
    refine ⟨y, hy2.1, hcy, htext, hskip, ?_⟩
    have := hy2.2
    simp only [Bool.not_eq_true'] at this
    simpa using this

lemma nodup_keys_mergeCore (sourceWord : Word) (conns : List Conn) :
    ((mergeCore sourceWord conns).map connKey).Nodup := by
  unfold mergeCore
  have hperm := List.perm_insertionSort connBefore
    (deduplicateConnections
      (conns.filter (fun connection =>
        ! isTrivialDerivative sourceWord.text connection.word.text
            sourceWord.language connection.word.language))
      (some sourceWord))
  have hn : ((deduplicateConnections
      (conns.filter (fun connection =>
        ! isTrivialDerivative sourceWord.text connection.word.text
            sourceWord.language connection.word.language))
      (some sourceWord)).map connKey).Nodup := by
    apply dedupGo_nodup_keys
    exact ⟨fun p hp => by simp at hp, fun p hp => by simp at hp,
           fun c hc => by simp at hc, by simp⟩
  exact ((hperm.map connKey).nodup_iff).mpr hn

/-- The skip guard unfolded for a present source word. -/
lemma dedupSkip_some_false {w : Word} {c : Conn}
    (h : dedupSkip (some w) c = false) :
    isSelfRef w c = false ∧ isValidEtymologicalConnection c w = true := by
  unfold dedupSkip at h
  simp only [Bool.or_eq_false_iff, Bool.not_eq_false'] at h
  exact h

/-- Case-insensitively equal texts are always trivial derivatives (the first
check of `isTrivialDerivative` compares the lower-cased trimmed texts). -/
lemma isTrivialDerivative_of_lower_eq {s t l1 l2 : String}
    (h : jsToLower t = jsToLower s) : isTrivialDerivative s t l1 l2 = true := by
  unfold isTrivialDerivative
  rw [h]
  simp

/-! ## Claims -/

/-- C1: for every query, the connection list returned by
`findEtymologicalConnections` contains no self-loop: no returned connection's
word text equals the query word's text under case-insensitive comparison, and
in particular no returned connection's `(lowercased text, lowercased
language)` pair equals the query word's pair.  (The final response maps
`mergedConnections` one-to-one, keeping `word` intact.) -/
theorem claim_c1_no_self_loops (word language : String) (inp : PipelineInput) (c : Conn)
    (h : c ∈ mergedConnections word language inp) :
    jsToLower c.word.text ≠ jsToLower (querySourceWord word language).text
    ∧ ¬ (jsToLower c.word.text = jsToLower (querySourceWord word language).text
         ∧ jsToLower c.word.language = jsToLower (querySourceWord word language).language) := by
  rcases mem_mergeCore h with ⟨y, _, hcy, _, _, htriv⟩
  have htext : jsToLower c.word.text ≠ jsToLower (querySourceWord word language).text := by
    intro heq
    have hty : jsToLower y.word.text = jsToLower (querySourceWord word language).text := by
      rw [← heq, hcy, normStar_text]
    have := @isTrivialDerivative_of_lower_eq _ _
      (querySourceWord word language).language y.word.language hty
    rw [this] at htriv
    exact absurd htriv (by simp)
  exact ⟨htext, fun hp => htext hp.1⟩

def c1Input : PipelineInput :=
  { etymonline := none,
    wiktionary := some
      [ { word := some { text := some "zzztarget", language := some "yy" },
          relationship := some { type := some "etymology", confidence := some (mkRat 9 10) } } ],
    originSegments := none }

def c1OutConn : Conn :=
  { word := { text := "zzztarget", language := "yy" },
    relationship := { type := "etymology", confidence := mkRat 9 10,
                      priority := some "medium", source := some "wiktionary" } }

theorem claim_c1_no_self_loops_witness :
    c1OutConn ∈ mergedConnections "zzzsource" "xx" c1Input
    ∧ jsToLower c1OutConn.word.text ≠ jsToLower (querySourceWord "zzzsource" "xx").text :=
  ⟨by decide, (claim_c1_no_self_loops "zzzsource" "xx" c1Input c1OutConn (by decide)).1⟩

/-- C2: for every query, no two connections returned by
`findEtymologicalConnections` share the same deduplication key, the pair of
lowercased word text and normalized language (`connLangNorm`: lowercased,
with `*`-prefixed texts forced to `ine-pro`). -/
theorem claim_c2_dedup_invariant (word language : String) (inp : PipelineInput) :
    (mergedConnections word language inp).Pairwise
      (fun a b => ¬ (jsToLower a.word.text = jsToLower b.word.text
        ∧ connLangNorm a = connLangNorm b)) := by
  have h := nodup_keys_mergeCore (querySourceWord word language)
    (collectConnections (querySourceWord word language) inp)
  have h2 : (mergedConnections word language inp).Pairwise
      (fun a b => connKey a ≠ connKey b) := List.pairwise_map.mp h
  refine h2.imp ?_
  intro a b hab hp
  apply hab
  unfold connKey
  rw [hp.1, hp.2]

/-- C3 (amended): the list returned by `findEtymologicalConnections` is
sorted non-increasing by the pair (priority tier, confidence): high (3)
precedes medium (2) precedes low (1) precedes untagged (0), and within a
tier confidences are non-increasing.  The sort is stable, so the order of
connections tied on both components follows the concatenation order (see the
counterexample). -/
theorem claim_c3_priority_ordering (word language : String) (inp : PipelineInput) :
    (mergedConnections word language inp).Pairwise
      (fun a b => priorityTier b < priorityTier a
        ∨ (priorityTier a = priorityTier b
           ∧ b.relationship.confidence ≤ a.relationship.confidence)) :=
  sorted_sortConnections _

def c3ConnA : Conn :=
  { word := { text := "*wed-", language := "ine-pro" },
    relationship := { type := "etymology", confidence := mkRat 9 10,
                      priority := some "high", source := some "etymonline.com" } }

def c3ConnB : Conn :=
  { word := { text := "*dher-", language := "ine-pro" },
    relationship := { type := "etymology", confidence := mkRat 9 10,
                      priority := some "high", source := some "etymonline.com" } }

def c3Query : Word := { text := "water", language := "en" }

/-- C3 counterexample: the final order is not deterministic regardless of the
order in which extractor outputs were concatenated: two candidate lists that
are permutations of each other (two etymonline connections tied on priority
tier and confidence) produce different output orders. -/
theorem claim_c3_counterexample :
    [c3ConnA, c3ConnB].Perm [c3ConnB, c3ConnA]
    ∧ mergeCore c3Query [c3ConnA, c3ConnB] ≠ mergeCore c3Query [c3ConnB, c3ConnA] :=
  ⟨List.Perm.swap c3ConnB c3ConnA [], by decide⟩

/-- C4: when two candidates collide on the deduplication key, the merge keeps
the one with the higher composite score (`getPriorityScore`: source
`etymonline.com` 3, `wiktionary` 2, `dictionary-api` 1, else 0; plus type
`etymology` 3, `cognate`/`ancestor` 2, `borrowing` 1, `related` or anything
else 0); on equal scores the higher confidence wins (on a full tie the first
candidate stays). -/
theorem claim_c4_collision_resolution (sw : Word) (a b : Conn)
    (haText : a.word.text ≠ "") (hbText : b.word.text ≠ "")
    (haSkip : dedupSkip (some sw) (normStar a) = false)
    (hbSkip : dedupSkip (some sw) (normStar b) = false)
    (hkey : connKey b = connKey a) :
    deduplicateConnections [a, b] (some sw) =
      if getPriorityScore a.relationship.source a.relationship.type
           < getPriorityScore b.relationship.source b.relationship.type
         ∨ (getPriorityScore b.relationship.source b.relationship.type
              = getPriorityScore a.relationship.source a.relationship.type
            ∧ a.relationship.confidence < b.relationship.confidence)
      then [normStar b] else [normStar a] := by
  unfold deduplicateConnections
  rw [dedupGo, if_neg haText, if_neg (by rw [haSkip]; exact Bool.false_ne_true)]
  have hlook1 : lookupAssoc ([] : List (String × Conn)) (connKey (normStar a)) = none := rfl
  simp only [hlook1]
  rw [dedupGo, if_neg hbText, if_neg (by rw [hbSkip]; exact Bool.false_ne_true)]
  have hkey2 : connKey (normStar b) = connKey (normStar a) := by
    rw [connKey_normStar, connKey_normStar, hkey]
  have hlook2 : lookupAssoc [(connKey (normStar a), normStar a)] (connKey (normStar b))
      = some (normStar a) := by
    unfold lookupAssoc
    rw [hkey2]
    simp
  simp only [hlook2]
  have hrepl : dedupReplaces (normStar a) (normStar b)
      = decide (getPriorityScore a.relationship.source a.relationship.type
           < getPriorityScore b.relationship.source b.relationship.type
         ∨ (getPriorityScore b.relationship.source b.relationship.type
              = getPriorityScore a.relationship.source a.relationship.type
            ∧ a.relationship.confidence < b.relationship.confidence)) := by
    unfold dedupReplaces
    rw [normStar_rel, normStar_rel]
  by_cases hc : getPriorityScore a.relationship.source a.relationship.type
           < getPriorityScore b.relationship.source b.relationship.type
         ∨ (getPriorityScore b.relationship.source b.relationship.type
              = getPriorityScore a.relationship.source a.relationship.type
            ∧ a.relationship.confidence < b.relationship.confidence)
  · rw [if_pos (by rw [hrepl]; exact decide_eq_true hc), if_pos hc]
    rw [dedupGo]
    simp [replaceFirst]
  · rw [if_neg (by rw [hrepl]; simpa using hc), if_neg hc]
    rw [dedupGo]
    simp

def c4SW : Word := { text := "water", language := "en" }

def c4A : Conn :=
  { word := { text := "aqua", language := "la" },
    relationship := { type := "cognate", confidence := mkRat 9 10,
                      priority := some "medium", source := some "wiktionary" } }

def c4B : Conn :=
  { word := { text := "aqua", language := "la" },
    relationship := { type := "etymology", confidence := mkRat 7 10,
                      priority := some "high", source := some "etymonline.com" } }

theorem claim_c4_collision_resolution_witness :
    deduplicateConnections [c4A, c4B] (some c4SW) = [c4B] := by
  have h := claim_c4_collision_resolution c4SW c4A c4B (by decide) (by decide)
    (by decide) (by decide) (by decide)
  rw [h]
  decide

/-! ## Cognate provenance lemmas -/

lemma mem_replaceFirstCog {l : List Cognate} {old new c : Cognate}
    (h : c ∈ replaceFirstCog l old new) : c ∈ l ∨ c = new := by
  induction l with
  | nil => simp [replaceFirstCog] at h
  | cons x xs ih =>
    rw [replaceFirstCog] at h
    by_cases hx : x = old
    · rw [if_pos hx] at h
      rcases List.mem_cons.mp h with rfl | h2
      · exact Or.inr rfl
      · exact Or.inl (List.mem_cons_of_mem _ h2)
    · rw [if_neg hx] at h
      rcases List.mem_cons.mp h with rfl | h2
      · exact Or.inl (List.mem_cons_self _ _)
      · rcases ih h2 with h3 | h3
        · exact Or.inl (List.mem_cons_of_mem _ h3)
        · exact Or.inr h3

lemma mem_dedupCogGo {l : List Cognate} {seen : List (String × Cognate)}
    {unique : List Cognate} {c : Cognate}
    (h : c ∈ dedupCogGo l seen unique) : c ∈ unique ∨ c ∈ l := by
  induction l generalizing seen unique with
  | nil => exact Or.inl h
  | cons x rest ih =>
    have lift : c ∈ unique ∨ c ∈ rest → c ∈ unique ∨ c ∈ x :: rest := by
      rintro (h2 | h2)
      · exact Or.inl h2
      · exact Or.inr (List.mem_cons_of_mem x h2)
    rw [dedupCogGo] at h
    rcases hl : lookupAssoc seen (cognateKey x) with _ | existing
    · simp only [hl] at h
      rcases ih h with h2 | h2
      · rcases List.mem_append.mp h2 with h3 | h3
        · exact Or.inl h3
        · have : c = x := by simpa using h3
          exact Or.inr (this ▸ List.mem_cons_self x rest)
      · exact lift (Or.inr h2)
    · simp only [hl] at h
      by_cases hr : existing.confidence < x.confidence
      · rw [if_pos hr] at h
        rcases ih h with h2 | h2
        · rcases mem_replaceFirstCog h2 with h3 | h3
          · exact Or.inl h3
          · exact Or.inr (h3 ▸ List.mem_cons_self x rest)
        · exact lift (Or.inr h2)
      · rw [if_neg hr] at h
        exact lift (ih h)

/-- Provenance through `findCognates`: every result comes from the direct
concept-table lookup or from the sound-change rules. -/
lemma mem_findCognates {word sourceLanguage : String} {targetLanguages : List String}
    {c : Cognate} (h : c ∈ findCognates word sourceLanguage targetLanguages) :
    c ∈ findDirectCognates (jsTrim (jsToLower word)) sourceLanguage targetLanguages
    ∨ c ∈ applySoundChangeRules (jsTrim (jsToLower word)) sourceLanguage targetLanguages := by
  unfold findCognates at h
  have h2 := (List.perm_insertionSort cogBefore _).mem_iff.mp h
  rcases mem_dedupCogGo h2 with h3 | h3
  · simp at h3
  · exact List.mem_append.mp h3

/-- Every direct concept-table cognate carries confidence 0.95 and a
semantic field and concept. -/
lemma mem_findDirectCognates {word sourceLanguage : String} {targetLanguages : List String}
    {c : Cognate} (h : c ∈ findDirectCognates word sourceLanguage targetLanguages) :
    c.confidence = mkRat 95 100 ∧ c.semanticField.isSome ∧ c.concept.isSome := by
  unfold findDirectCognates at h
  rcases List.mem_flatMap.mp h with ⟨field, _, h2⟩
  rcases List.mem_flatMap.mp h2 with ⟨concept, _, h3⟩
  by_cases hmatch : ((lookupAssoc concept.2 sourceLanguage).getD []).any
      (fun w => jsToLower w = jsToLower word)
  · rw [if_pos hmatch] at h3
    rcases List.mem_flatMap.mp h3 with ⟨targetLang, _, h4⟩
    by_cases htl : targetLang ≠ sourceLanguage ∧ (lookupAssoc concept.2 targetLang).isSome = true
    · rw [if_pos (by simpa using htl)] at h4
      rcases List.mem_filterMap.mp h4 with ⟨cw, _, h5⟩
      by_cases hd : (! isDerivative word cw sourceLanguage targetLang) = true
      · rw [if_pos hd] at h5
        have := Option.some.inj h5
        rw [← this]
        exact ⟨rfl, rfl, rfl⟩
      · rw [if_neg hd] at h5
        simp at h5
    · rw [if_neg (by simpa using htl)] at h4
      simp at h4
  · rw [if_neg hmatch] at h3
    simp at h3

/-- Every sound-change candidate carries confidence 0.75 and neither
semantic field nor concept. -/
lemma mem_applySoundChangeRules {word sourceLanguage : String} {targetLanguages : List String}
    {c : Cognate} (h : c ∈ applySoundChangeRules word sourceLanguage targetLanguages) :
    c.confidence = mkRat 3 4 ∧ c.semanticField = none ∧ c.concept = none := by
  unfold applySoundChangeRules at h
  rcases List.mem_flatMap.mp h with ⟨targetLang, _, h2⟩
  by_cases hsame : targetLang = sourceLanguage
  · rw [if_pos hsame] at h2
    simp at h2
  · rw [if_neg hsame] at h2
    rcases List.mem_flatMap.mp h2 with ⟨family, _, h3⟩
    rcases List.mem_flatMap.mp h3 with ⟨targetFamily, _, h4⟩
    rcases List.mem_filterMap.mp h4 with ⟨rule, _, h5⟩
    unfold soundChangeCandidate at h5
    by_cases hlang : (rule.lang.isSome && rule.lang ≠ some targetLang) = true
    · rw [if_pos hlang] at h5
      simp at h5
    · rw [if_neg hlang] at h5
      rcases happ : rule.apply word.data with _ | t
      · simp only [happ] at h5
        simp at h5
      · simp only [happ] at h5
        by_cases hkeep : (decide ((⟨t⟩ : String) ≠ word) && decide (t.length > 1)) = true
        · rw [if_pos hkeep] at h5
          have := Option.some.inj h5
          rw [← this]
          exact ⟨rfl, rfl, rfl⟩
        · rw [if_neg hkeep] at h5
          simp at h5

/-- C10: every connection contributed by the rule-based cognate generator to
the output pipeline originates from the direct concept-table lookup: a kept
cognate has confidence at least 0.85 and both a semantic field and a concept,
and is an element of `findDirectCognates`; sound-change candidates (always
confidence 0.75 with neither field) are never kept. -/
theorem claim_c10_cognate_filter :
    (∀ (normalizedWord normalizedLanguage : String) (c : Cognate),
      c ∈ keptCognates normalizedWord normalizedLanguage →
        c ∈ findDirectCognates (jsTrim (jsToLower normalizedWord)) normalizedLanguage cognateLanguages
        ∧ mkRat 85 100 ≤ c.confidence
        ∧ (c.semanticField).getD "" ≠ "" ∧ (c.concept).getD "" ≠ "")
    ∧ (∀ (word sourceLanguage : String) (targetLanguages : List String) (c : Cognate),
        c ∈ applySoundChangeRules word sourceLanguage targetLanguages →
          c.confidence = mkRat 3 4 ∧ c.semanticField = none ∧ c.concept = none) := by
  constructor
  · intro normalizedWord normalizedLanguage c hc
    have hf := List.mem_filter.mp hc
    have hmem := hf.1
    have hpred := hf.2
    simp only [Bool.and_eq_true, Bool.not_eq_true', decide_eq_false_iff_not, not_lt,
      decide_eq_true_eq] at hpred
    obtain ⟨⟨⟨hconf, hsf⟩, hcp⟩, _⟩ := hpred
    rcases mem_findCognates hmem with hdir | hsound
    · exact ⟨hdir, hconf, hsf, hcp⟩
    · rcases mem_applySoundChangeRules hsound with ⟨hc34, _, _⟩
      rw [hc34] at hconf
      exact absurd hconf (by decide)
  · intro word sourceLanguage targetLanguages c hc
    exact mem_applySoundChangeRules hc

theorem claim_c10_cognate_filter_witness :
    (({ word := "wasser", language := "de", confidence := mkRat 95 100,
        relationship := "cognate", semanticField := some "basic_concepts",
        concept := some "water",
        notes := some "Direct cognate through water concept" } : Cognate)
      ∈ findDirectCognates (jsTrim (jsToLower "water")) "en" cognateLanguages)
    ∧ (({ word := "vater", language := "es", confidence := mkRat 3 4,
          relationship := "cognate", soundChange := some "water → aqua",
          notes := some "Potential cognate via sound change: water → aqua" } : Cognate).confidence
        = mkRat 3 4) := by
  constructor
  · exact (claim_c10_cognate_filter.1 "water" "en" _ (by decide)).1
  · exact (claim_c10_cognate_filter.2 "water" "en" [ "es" ] _ (by decide)).1

/-! ## Confidence bounds (C5) -/

/-- The confidence `normalizeConnection` assigns to a raw candidate
(`typeof confidence === 'number' ? confidence : 0.5`). -/
def rawConfidence (rc : RawConn) : ℚ :=
  match rc.relationship with
  | some r => (r.confidence).getD (mkRat 1 2)
  | none => mkRat 1 2

lemma normalizeConnection_conf {sw : Word} {rc : RawConn} {nc : Conn}
    (h : normalizeConnection sw rc = some nc) :
    nc.relationship.confidence = rawConfidence rc := by
  unfold normalizeConnection at h
  rcases hw : rc.word with _ | w
  · simp only [hw] at h
    simp at h
  · simp only [hw] at h
    by_cases ht : jsTrim ((w.text).getD "") = ""
    · rw [if_pos ht] at h
      simp at h
    · rw [if_neg ht] at h
      have := Option.some.inj h
      rw [← this]
      rfl

lemma stamp_conf (p : String) (s : Option String) (c : Conn) :
    (stamp p s c).relationship.confidence = c.relationship.confidence := rfl

lemma boostEtymonline_le_one {c : Conn} (h : c.relationship.confidence ≤ 1) :
    (boostEtymonline c).relationship.confidence ≤ 1 := by
  unfold boostEtymonline
  split_ifs
  · exact le_trans (min_le_right _ _) (by decide)
  · exact h

/-- Every collected candidate has confidence at most 1 provided the raw
etymonline and wiktionary candidates do. -/
lemma collect_conf_le_one {sw : Word} {inp : PipelineInput}
    (he : ∀ rc ∈ (inp.etymonline).getD [], rawConfidence rc ≤ 1)
    (hw : ∀ rc ∈ (inp.wiktionary).getD [], rawConfidence rc ≤ 1) :
    ∀ c ∈ collectConnections sw inp, c.relationship.confidence ≤ 1 := by
  intro c hc
  unfold collectConnections at hc
  rcases List.mem_append.mp hc with hc1 | hc4
  rcases List.mem_append.mp hc1 with hc2 | hc3
  rcases List.mem_append.mp hc2 with hce | hcw
  · -- etymonline
    rcases he2 : inp.etymonline with _ | conns
    · rw [he2] at hce
      simp at hce
    · rw [he2] at hce
      rcases List.mem_filterMap.mp hce with ⟨rc, hrc, hmap⟩
      rcases hnorm : normalizeConnection sw rc with _ | nc
      · rw [hnorm] at hmap
        simp at hmap
      · rw [hnorm] at hmap
        simp only [Option.map_some'] at hmap
        have hceq := Option.some.inj hmap
        rw [← hceq, stamp_conf]
        apply boostEtymonline_le_one
        rw [normalizeConnection_conf hnorm]
        exact he rc (by rw [he2]; simpa using hrc)
  · -- wiktionary
    rcases hw2 : inp.wiktionary with _ | conns
    · rw [hw2] at hcw
      simp at hcw
    · rw [hw2] at hcw
      rcases List.mem_filterMap.mp hcw with ⟨rc, hrc, hmap⟩
      rcases hnorm : normalizeConnection sw rc with _ | nc
      · rw [hnorm] at hmap
        simp at hmap
      · rw [hnorm] at hmap
        simp only [Option.map_some'] at hmap
        have hceq := Option.some.inj hmap
        rw [← hceq, stamp_conf]
        rw [normalizeConnection_conf hnorm]
        exact hw rc (by rw [hw2]; simpa using hrc)
  · -- dictionary origin segments
    rcases ho : inp.originSegments with _ | segments
    · rw [ho] at hc3
      simp at hc3
    · rw [ho] at hc3
      rcases List.mem_map.mp hc3 with ⟨c0, hc0, hceq⟩
      rcases List.mem_map.mp hc0 with ⟨segment, _, hseg⟩
      rw [← hceq, stamp_conf, ← hseg]
      exact (by decide : (mkRat 3 5 : ℚ) ≤ 1)
  · -- cognates
    rcases List.mem_map.mp hc4 with ⟨cognate, hcog, hceq⟩
    have hmem := (List.mem_filter.mp hcog).1
    rcases mem_findCognates hmem with hdir | hsound
    · have := (mem_findDirectCognates hdir).1
      rw [← hceq]
      show cognate.confidence ≤ 1
      rw [this]
      decide
    · have := (mem_applySoundChangeRules hsound).1
      rw [← hceq]
      show cognate.confidence ≤ 1
      rw [this]
      decide

/-- C5 (amended): every returned connection has confidence within `[0, 1]`
provided every raw candidate confidence is at most 1.  The lower bound is
enforced unconditionally by the validation floor (0.4/0.5); there is no upper
clamp, so an out-of-range confidence above 1 propagates (see the
counterexample). -/
theorem claim_c5_confidence_bounds (word language : String) (inp : PipelineInput)
    (he : ∀ rc ∈ (inp.etymonline).getD [], rawConfidence rc ≤ 1)
    (hw : ∀ rc ∈ (inp.wiktionary).getD [], rawConfidence rc ≤ 1)
    (c : Conn) (hc : c ∈ mergedConnections word language inp) :
    0 ≤ c.relationship.confidence ∧ c.relationship.confidence ≤ 1 := by
  rcases mem_mergeCore hc with ⟨y, hy, hcy, _, hskip, _⟩
  have hvalid := (dedupSkip_some_false hskip).2
  have hlow : mkRat 2 5 ≤ (normStar y).relationship.confidence := valid_conf_lower hvalid
  rw [normStar_rel] at hlow
  have hup : y.relationship.confidence ≤ 1 := collect_conf_le_one he hw y hy
  have hconf : c.relationship.confidence = y.relationship.confidence := by
    rw [hcy, normStar_rel]
  rw [hconf]
  exact ⟨le_trans (by decide) hlow, hup⟩

def c5WitnessInput : PipelineInput :=
  { etymonline := none,
    wiktionary := some
      [ { word := some { text := some "zzubig", language := some "zz" },
          relationship := some { type := some "etymology", confidence := some (mkRat 4 5) } } ],
    originSegments := none }

def c5WitnessConn : Conn :=
  { word := { text := "zzubig", language := "zz" },
    relationship := { type := "etymology", confidence := mkRat 4 5,
                      priority := some "medium", source := some "wiktionary" } }

theorem claim_c5_confidence_bounds_witness :
    0 ≤ c5WitnessConn.relationship.confidence
    ∧ c5WitnessConn.relationship.confidence ≤ 1 :=
  claim_c5_confidence_bounds "zwort" "zz" c5WitnessInput
    (by intro rc hrc; simp [c5WitnessInput] at hrc)
    (by
      intro rc hrc
      simp only [c5WitnessInput, Option.getD_some, List.mem_singleton] at hrc
      rw [hrc]
      decide)
    c5WitnessConn (by decide)

def c5CexInput : PipelineInput :=
  { etymonline := none,
    wiktionary := some
      [ { word := some { text := some "aqua", language := some "la" },
          relationship := some { type := some "cognate", confidence := some (mkRat 3 2) } } ],
    originSegments := none }

/-- C5 counterexample: a candidate arriving with the out-of-range confidence
1.5 is returned unclamped — the claim that confidence is clamped to `[0, 1]`
for every possible candidate set is false. -/
theorem claim_c5_counterexample :
    ∃ c ∈ mergedConnections "water" "en" c5CexInput, ¬ c.relationship.confidence ≤ 1 := by
  refine ⟨{ word := { text := "aqua", language := "la" },
            relationship := { type := "cognate", confidence := mkRat 3 2,
                              priority := some "medium", source := some "wiktionary" } },
    by decide, by decide⟩

/-! ## Proto exemption (C6) -/

lemma star_not_contains {s : String} (hs : startsWithStar s = true)
    {l : List String} (hl : ∀ w ∈ l, startsWithStar w = false) :
    l.contains s = false := by
  induction l with
  | nil => rfl
  | cons a rest ih =>
    rw [List.contains_cons]
    have ha : (s == a) = false := by
      by_cases h : s = a
      · rw [← h] at hl
        have := hl s (List.mem_cons_self _ _)
        rw [hs] at this
        simp at this
      · simpa using h
    rw [ha]
    simp only [Bool.false_or]
    exact ih (fun w hw => hl w (List.mem_cons_of_mem a hw))

/-- C6: a candidate whose word text starts with `*` is never rejected by
either semantic-suspicion filter (`areSemanticallyUnrelated` of the merge
engine, `areSemanticallySuspicious` of the HTML extractor), and the merge
step always rewrites its language code to `ine-pro`, whatever language the
extractor reported. -/
theorem claim_c6_proto_exemption :
    (∀ (sourceText candidate : String), startsWithStar candidate = true →
      areSemanticallyUnrelated sourceText candidate = false)
    ∧ (∀ (candidate sourceWord : String), startsWithStar candidate = true →
      areSemanticallySuspicious candidate sourceWord = false)
    ∧ (∀ (word language : String) (inp : PipelineInput) (c : Conn),
        c ∈ mergedConnections word language inp → startsWithStar c.word.text = true →
        c.word.language = "ine-pro") := by
  refine ⟨?_, ?_, ?_⟩
  · intro sourceText candidate h
    unfold areSemanticallyUnrelated
    rw [h]
    simp
  · intro candidate sourceWord h
    have hl : startsWithStar (jsToLower candidate) = true := by
      rw [startsWithStar_jsToLower]
      exact h
    have he : basicElementsEO.contains (jsToLower candidate) = false :=
      star_not_contains hl (by decide)
    have hc : colorsEO.contains (jsToLower candidate) = false :=
      star_not_contains hl (by decide)
    have hn : numbersEO.contains (jsToLower candidate) = false :=
      star_not_contains hl (by decide)
    have he2 : jsToLower candidate ∉ basicElementsEO := by simpa using he
    have hc2 : jsToLower candidate ∉ colorsEO := by simpa using hc
    have hn2 : jsToLower candidate ∉ numbersEO := by simpa using hn
    simp [areSemanticallySuspicious, hl]
    exact ⟨⟨fun hm => absurd hm he2, fun hm => absurd hm hc2⟩,
           fun hm => absurd hm he2, fun hm => absurd hm hn2⟩
  · intro word language inp c hc hstar
    rcases mem_mergeCore hc with ⟨y, _, hcy, _⟩
    have hyt : startsWithStar y.word.text = true := by
      rw [← normStar_text y, ← hcy]
      exact hstar
    have hcond : startsWithStar (jsToLower y.word.text) = true := by
      rw [startsWithStar_jsToLower]
      exact hyt
    rw [hcy]
    unfold normStar
    rw [if_pos hcond]

def c6Input : PipelineInput :=
  { etymonline := none,
    wiktionary := some
      [ { word := some { text := some "*wed-", language := some "qq" },
          relationship := some { type := some "etymology", confidence := some (mkRat 4 5) } } ],
    originSegments := none }

def c6OutConn : Conn :=
  { word := { text := "*wed-", language := "ine-pro" },
    relationship := { type := "etymology", confidence := mkRat 4 5,
                      priority := some "medium", source := some "wiktionary" } }

theorem claim_c6_proto_exemption_witness :
    areSemanticallyUnrelated "water" "*wed-" = false
    ∧ areSemanticallySuspicious "*wed-" "water" = false
    ∧ c6OutConn.word.language = "ine-pro" :=
  ⟨claim_c6_proto_exemption.1 "water" "*wed-" (by decide),
   claim_c6_proto_exemption.2.1 "*wed-" "water" (by decide),
   claim_c6_proto_exemption.2.2 "zzzsource" "xx" c6Input c6OutConn (by decide) (by decide)⟩

/-! ## Root-key normalization (C7) -/

lemma pieFind_sound : ∀ {l g : List Char}, pieFind l = some g →
    g ≠ [] ∧ ∀ c ∈ g, isPieChar c = true := by
  intro l
  induction l with
  | nil => intro g h; simp [pieFind] at h
  | cons c rest ih =>
    intro g h
    rw [pieFind] at h
    by_cases hc : c = '*'
    · rw [if_pos hc] at h
      by_cases hr : (rest.takeWhile isPieChar).isEmpty = true
      · rw [if_pos hr] at h
        exact ih h
      · rw [if_neg hr] at h
        have hg : g = rest.takeWhile isPieChar := (Option.some.inj h).symm
        subst hg
        constructor
        · simpa using hr
        · intro a ha
          exact List.mem_takeWhile_imp ha
    · rw [if_neg hc] at h
      exact ih h

lemma pieFind_star_all {l : List Char} (hne : l ≠ [])
    (hall : ∀ c ∈ l, isPieChar c = true) :
    pieFind ('*' :: l) = some l := by
  rw [pieFind, if_pos rfl]
  simp only [takeWhile_eq_self_of_forall hall]
  rw [if_neg (by simpa using hne)]

/-- C7 (amended): `normalizeEtymologyKey` is idempotent on every input that
contains an embedded reconstructed-root token (the `*[class]+` branch); on
other inputs a second application may strip a further leading word, so the
function is not idempotent in general (see the counterexample). -/
theorem claim_c7_idempotent_on_root (s : String)
    (h : (pieFind (jsTrim s).data).isSome = true) :
    normalizeEtymologyKey (normalizeEtymologyKey s) = normalizeEtymologyKey s := by
  rcases hp : pieFind (jsTrim s).data with _ | g
  · rw [hp] at h
    simp at h
  · obtain ⟨hgne, hgpie⟩ := pieFind_sound hp
    have hsne : s ≠ "" := by
      intro hseq
      rw [hseq] at hp
      rw [(by decide : (jsTrim "").data = ([] : List Char))] at hp
      simp [pieFind] at hp
    have hfs : normalizeEtymologyKey s = ⟨'*' :: g.map lowerChar⟩ := by
      unfold normalizeEtymologyKey
      rw [if_neg hsne]
      simp only [hp]
    rw [hfs]
    have hg2pie : ∀ c ∈ g.map lowerChar, isPieChar c = true := by
      intro c hcmem
      rcases List.mem_map.mp hcmem with ⟨c0, hc0, rfl⟩
      exact isPieChar_lowerChar (hgpie c0 hc0)
    have hne2 : (⟨'*' :: g.map lowerChar⟩ : String) ≠ "" := by
      intro heq
      have h2 : ('*' :: g.map lowerChar) = "".data := congrArg String.data heq
      simp at h2
    unfold normalizeEtymologyKey
    rw [if_neg hne2]
    have htrim : jsTrim ⟨'*' :: g.map lowerChar⟩ = ⟨'*' :: g.map lowerChar⟩ := by
      apply jsTrim_of_forall_not_ws
      intro c hcmem
      rcases List.mem_cons.mp hcmem with rfl | hcmem2
      · decide
      · exact isPieChar_not_ws (hg2pie c hcmem2)
    rw [htrim]
    have hfind : pieFind (⟨'*' :: g.map lowerChar⟩ : String).data
        = some (g.map lowerChar) := by
      rw [data_mk]
      apply pieFind_star_all
      · intro hnil
        exact hgne (List.map_eq_nil_iff.mp hnil)
      · exact hg2pie
    simp only [hfind]
    congr 1
    congr 1
    rw [List.map_map]
    apply List.map_congr_left
    intro c _
    exact lowerChar_idem c

theorem claim_c7_idempotent_on_root_witness :
    (pieFind (jsTrim "PIE *wed-").data).isSome = true
    ∧ normalizeEtymologyKey (normalizeEtymologyKey "PIE *wed-")
        = normalizeEtymologyKey "PIE *wed-" :=
  ⟨by decide, claim_c7_idempotent_on_root "PIE *wed-" (by decide)⟩

/-- C7 counterexample: normalization is not idempotent on inputs without a
reconstructed-root token: the generic leading-word stripper fires again on a
multi-word remainder (`"a b c"` normalizes to `"b c"`, which normalizes to
`"c"`). -/
theorem claim_c7_counterexample :
    normalizeEtymologyKey (normalizeEtymologyKey "a b c") ≠ normalizeEtymologyKey "a b c"
    ∧ normalizeEtymologyKey "a b c" = "b c"
    ∧ normalizeEtymologyKey "b c" = "c" := by
  refine ⟨by decide, by decide, by decide⟩

/-! ## Error behaviour of the entry point (C8) -/

/-- C8 (amended): `findEtymologicalConnections` returns a (possibly empty)
result exactly when the trimmed query word is nonempty; on an empty or
whitespace-only word it throws (`Error('Word parameter is required')`,
modelled as `Except.error`) instead of returning an empty result. -/
theorem claim_c8_entry_point_throws (word language : String) (inp : PipelineInput) :
    (∃ d, findEtymologicalConnections word language inp = Except.ok d)
      ↔ jsTrim word ≠ "" := by
  unfold findEtymologicalConnections
  by_cases h : jsTrim word = ""
  · rw [if_pos h]
    simp [h]
  · rw [if_neg h]
    simp [h]

def c8EmptyInput : PipelineInput :=
  { etymonline := none, wiktionary := none, originSegments := none }

theorem claim_c8_entry_point_throws_witness :
    ∃ d, findEtymologicalConnections "water" "en" c8EmptyInput = Except.ok d :=
  (claim_c8_entry_point_throws "water" "en" c8EmptyInput).mpr (by decide)

/-- C8 counterexample: a whitespace-only query word makes the entry point
throw rather than return an empty result, contradicting the claim that no
core function ever propagates an exception. -/
theorem claim_c8_counterexample :
    findEtymologicalConnections "   " "en" c8EmptyInput
      = Except.error "Word parameter is required" := by
  unfold findEtymologicalConnections
  rw [if_pos (by decide)]

/-! ## Cross-reference synthesis (C9) -/

lemma crossRefAdditionsFor_eq_nil (db : List (String × List WordEntry))
    (sourceWord : String) (conn : EConn) :
    crossRefAdditionsFor db sourceWord conn = [] := by
  unfold crossRefAdditionsFor
  rcases hsr : sharedRootOrOrigin conn.rel with _ | sharedRoot
  · rfl
  · simp only []
    rcases hdb : lookupAssoc db (normalizeEtymologyKey sharedRoot) with _ | relatedWords
    · rfl
    · simp only []
      by_cases hlen : relatedWords.length > 1
      · rw [if_pos hlen]
        have hempty : (List.filter (fun cognate => decide (mkRat 3 4 < cognate.confidence))
            (List.filter (fun cognate =>
                ! areSemanticallySuspicious cognate.word sourceWord
                && ! decide (cognate.confidence < mkRat 13 20))
              (List.map (toXrefCognate sharedRoot sourceWord)
                (List.filter (fun entry => decide (entry.word ≠ sourceWord)) relatedWords))))
            = [] := by
          apply List.filter_eq_nil_iff.mpr
          intro cg hcg
          have hcg2 := (List.mem_filter.mp hcg).1
          rcases List.mem_map.mp hcg2 with ⟨entry, _, rfl⟩
          simp only [toXrefCognate, decide_eq_true_eq, not_lt]
          exact min_le_left _ _
        rw [hempty]
        split <;> rfl
      · rw [if_neg hlen]

lemma crossRefAdditions_eq_nil (db : List (String × List WordEntry))
    (sourceWord : String) (connections : List EConn) :
    crossRefAdditions db sourceWord connections = [] := by
  unfold crossRefAdditions
  induction connections with
  | nil => rfl
  | cons conn rest ih =>
    rw [List.flatMap_cons, crossRefAdditionsFor_eq_nil, ih]
    rfl

def c9Database : List (String × List WordEntry) :=
  [ ( "*wed-",
      [ { word := "water", language := "en", etymologicalForm := "*wed-",
          etymologicalLanguage := "ine-pro", relationshipType := "etymology",
          confidence := mkRat 9 10, notes := "", sharedRoot := "PIE *wed-" },
        { word := "wet", language := "en", etymologicalForm := "*wed-",
          etymologicalLanguage := "ine-pro", relationshipType := "etymology",
          confidence := mkRat 9 10, notes := "", sharedRoot := "PIE *wed-" } ] ) ]

def c9Connections : List EConn :=
  [ { text := "*wed-", language := "ine-pro", partOfSpeech := "root",
      rel := { type := "etymology", confidence := mkRat 9 10, notes := "",
               origin := some "PIE *wed-", sharedRoot := some "PIE *wed-" } } ]

/-- C9: the shared-root cross-reference path never synthesizes a connection —
at the failing input (a cluster of two distinct source words with confidence
0.9 under the shared root `*wed-`, where the claim promises up to two
synthesized cognates) and in general, for any database contents, query word
and connection list.  The candidate confidences are first capped at 0.75
(`Math.min(0.75, entry.confidence)`) and then filtered by
`confidence > 0.75`, so the `topCognates` selection is always empty and the
claimed top-2 synthesis (discount 0.9 capped at 0.85, semantic and root
validation) is dead code. -/
theorem claim_c9_cross_reference_synthesis :
    crossRefAdditions c9Database "otter" c9Connections = []
    ∧ ∀ (db : List (String × List WordEntry)) (sourceWord : String)
        (connections : List EConn),
        crossRefAdditions db sourceWord connections = [] :=
  ⟨crossRefAdditions_eq_nil c9Database "otter" c9Connections, crossRefAdditions_eq_nil⟩

end Etmos
